import Mathlib

/-!
Verification of the node-generation module `rbf/pde/nodes.py`.

The module is embedded shallowly:

* points are `Vec := List ℝ`, node arrays are `List Vec`;
* the external collaborators (the geometric `Domain` object, the KD-tree
  nearest-neighbour index, and the scipy reverse-Cuthill-McKee reordering)
  are modelled as oracle parameters, mirroring the interfaces the source
  consumes (`intersection_count`, `intersection_point`, `normals`, `snap`,
  `KDTree.query`, and the permutation returned by `neighbor_argsort`);
* the NaN sentinel rows of the normals array are modelled as `Option Vec`
  (`none` is the all-NaN row);
* fallible code paths (`assert_shape` failures, the boundary-group
  validation `ValueError`, the `KeyError` on a missing ghost group) are
  modelled with `Except String`.
-/

open scoped Classical

noncomputable section

/-- A point of the d-dimensional space (one row of a numpy `(n, d)` array). -/
abbrev Vec := List ℝ

/-- Rowwise numpy addition `a + b`. -/
def vadd (a b : Vec) : Vec := List.zipWith (· + ·) a b

/-- Rowwise numpy subtraction `a - b`. -/
def vsub (a b : Vec) : Vec := List.zipWith (· - ·) a b

/-- Scalar multiplication `c * v` of a row by a scalar. -/
def smul (c : ℝ) (v : Vec) : Vec := v.map (fun x => c * x)

/-- Division `v / s` of a row by a scalar. -/
def vdivS (v : Vec) (s : ℝ) : Vec := v.map (fun x => x / s)

/-- Dot product of two rows, `np.sum(a*b)`. -/
def dotV (a b : Vec) : ℝ := (List.zipWith (· * ·) a b).sum

/-- Euclidean norm `np.linalg.norm(v)`. -/
def vnorm (v : Vec) : ℝ := Real.sqrt (dotV v v)

/-- The zero vector of dimension `d`. -/
def zeroV (d : ℕ) : Vec := List.replicate d 0

/-- Sum of a list of `d`-dimensional rows, `np.sum(..., axis=1)`. -/
def vsumL (d : ℕ) (l : List Vec) : Vec := l.foldr vadd (zeroV d)

/-- numpy fancy indexing `xs[p]` of a list by a list of row indices. -/
def npIndex (dflt : α) (p : List ℕ) (xs : List α) : List α :=
  p.map (fun j => xs.getD j dflt)

theorem vadd_length (a b : Vec) : (vadd a b).length = min a.length b.length := by
  simp [vadd]

theorem vsub_length (a b : Vec) : (vsub a b).length = min a.length b.length := by
  simp [vsub]

theorem smul_length (c : ℝ) (v : Vec) : (smul c v).length = v.length := by
  simp [smul]

theorem vdivS_length (v : Vec) (s : ℝ) : (vdivS v s).length = v.length := by
  simp [vdivS]

theorem dotV_self_nonneg (v : Vec) : 0 ≤ dotV v v := by
  induction v with
  | nil => simp [dotV]
  | cons x xs ih =>
      have hx : 0 ≤ x * x := mul_self_nonneg x
      simpa [dotV, List.zipWith] using add_nonneg hx ih

theorem dotV_self_eq_zero_iff (v : Vec) :
    dotV v v = 0 ↔ v = zeroV v.length := by
  induction v with
  | nil => simp [dotV, zeroV]
  | cons x xs ih =>
      constructor
      · intro h
        have hx : 0 ≤ x * x := mul_self_nonneg x
        have hxs : 0 ≤ dotV xs xs := dotV_self_nonneg xs
        have hsum : x * x + dotV xs xs = 0 := by
          simpa [dotV, List.zipWith] using h
        have hx0 : x * x = 0 := le_antisymm (by linarith) hx
        have hxs0 : dotV xs xs = 0 := by linarith
        have hx' : x = 0 := by
          have := mul_self_eq_zero.mp hx0
          exact this
        have hxs' : xs = zeroV xs.length := ih.mp hxs0
        simp only [zeroV, List.length_cons, List.replicate_succ, hx']
        exact List.cons_eq_cons.mpr ⟨rfl, by simpa [zeroV] using hxs'⟩
      · intro h
        have hx : x = 0 := by
          have := congrArg (fun l => l.headD 1) h
          simpa [zeroV] using this
        have hxs : xs = zeroV xs.length := by
          have := congrArg List.tail h
          simpa [zeroV] using this
        rw [hx, hxs]
        induction xs.length with
        | zero => simp [dotV, zeroV]
        | succ n ihn => simpa [dotV, zeroV, List.zipWith, List.replicate] using ihn

theorem vnorm_eq_zero_iff (v : Vec) : vnorm v = 0 ↔ v = zeroV v.length := by
  rw [vnorm, Real.sqrt_eq_zero (dotV_self_nonneg v), dotV_self_eq_zero_iff]

/-- The KD-tree oracle (external Spatial Index collaborator): `kq pool x k`
models `KDTree(pool).query(x, k)` for one query row `x`, returning the
reported list of (distance, index) pairs, nearest first.  The scipy calls in
the source are rowwise over the query array, so the oracle is taken per row. -/
abbrev KQ := List Vec → Vec → ℤ → List (ℝ × ℕ)

/-- The external `Domain` collaborator, by the interface the source consumes:
`dim`, `vertices`, `nsimp = len(domain.simplices)`, per-simplex outward
`normals`, rowwise `intersection_count` and `intersection_point` on segments,
and `snap(points, delta) -> (snapped_points, simplex_index_or_minus_1)`.
The domain is modelled already oriented (`orient_simplices` mutates only this
external object). -/
structure DomainO where
  dim : ℕ
  vertices : List Vec
  nsimp : ℕ
  normals : ℕ → Vec
  intrCount : Vec → Vec → ℕ
  intrPoint : Vec → Vec → Vec × ℕ
  snap : List Vec → ℝ → List (Vec × ℤ)

/-- numpy `(n, dim)` shape requirement checked by `assert_shape`. -/
def ShapeOK (d : ℕ) (xs : List Vec) : Prop := ∀ v ∈ xs, v.length = d

/-- Source `_disperse_step` (nodes.py lines 22-56): merge free and fixed
nodes, query the `neighbors + 1` nearest points of each free node, drop the
self match, sum the pairwise repulsive forces
`(1/(rho(nbr)*rho(x))) * (x - nbr) / dist**3`, divide the net force by its
Euclidean norm (division of the zero vector by its zero norm yields the zero
vector, as `np.nan_to_num` does after the 0/0), and move by
`delta * dist_to_nearest * direction`.  An empty node set returns a copy. -/
def disperse_step (kq : KQ) (nodes : List Vec) (rho : Vec → ℝ)
    (fixed_nodes : List Vec) (neighbors : ℤ) (delta : ℝ) : List Vec :=
  if nodes.length = 0 then nodes
  else
    let all_nodes := nodes ++ fixed_nodes
    nodes.map (fun x =>
      let nbrs := (kq all_nodes x (neighbors + 1)).drop 1
      let forces := nbrs.map (fun p =>
        vdivS (smul (1 / (rho (all_nodes.getD p.2 []) * rho x))
          (vsub x (all_nodes.getD p.2 []))) (p.1 ^ 3))
      let direction := vsumL x.length forces
      let direction2 := vdivS direction (vnorm direction)
      let step := smul (delta * (nbrs.headD ((0 : ℝ), (0 : ℕ))).1) direction2
      vadd x step)

/-- The single-bounce reflection applied to a crossing node
(nodes.py lines 142-154): with `intr_pnt, intr_idx` the intersection data of
the segment from `old` to `prop`, `intr_norms` the simplex normal and
`res = prop - intr_pnt`, the node is moved to
`prop - 2 * intr_norms * (res . intr_norms)`. -/
def bounce1 (O : DomainO) (old prop : Vec) : Vec :=
  let ip := (O.intrPoint old prop).1
  let nrm := O.normals (O.intrPoint old prop).2
  let res := vsub prop ip
  vsub prop (smul (2 * dotV res nrm) nrm)

/-- Per-node boundary handling of one `disperse` iteration
(nodes.py lines 139-163): keep the proposed position if the segment from the
old position does not cross the boundary; otherwise bounce once, and revert
to the old position if the bounced position still crosses. -/
def bounceNode (O : DomainO) (old prop : Vec) : Vec :=
  if O.intrCount old prop = 0 then prop
  else
    let b := bounce1 O old prop
    if O.intrCount old b = 0 then b else old

/-- Rowwise boundary handling.  The vectorized source gathers the crossing
rows with `nonzero()` and scatters the bounced/reverted rows back; the row
sets are disjoint per index, so the update is rowwise. -/
def bounceAll (O : DomainO) (old new : List Vec) : List Vec :=
  List.zipWith (bounceNode O) old new

/-- One iteration of the `disperse` loop (nodes.py lines 130-164). -/
def disperseIter (O : DomainO) (kq : KQ) (rho : Vec → ℝ) (fixed_nodes : List Vec)
    (neighbors : ℤ) (delta : ℝ) (nodes : List Vec) : List Vec :=
  bounceAll O nodes (disperse_step kq nodes rho fixed_nodes neighbors delta)

/-- `for itr in range(n)` applying `f` to an accumulator. -/
def loopN (f : α → α) : ℕ → α → α
  | 0, x => x
  | n + 1, x => loopN f n (f x)

/-- Source `disperse` (nodes.py lines 59-166): default density is 1, default
fixed-node set is empty, default neighbor count is 3 in 2D and 4 in 3D (the
library's domains are two- or three-dimensional), the neighbor count is
clamped to `total - 1` in Python int arithmetic, and the shape asserts of
`assert_shape` are the error exits. -/
def disperse (O : DomainO) (kq : KQ) (nodes : List Vec) (iterations : ℕ)
    (rho0 : Option (Vec → ℝ)) (fixed_nodes0 : Option (List Vec))
    (neighbors0 : Option ℤ) (delta : ℝ) : Except String (List Vec) :=
  if ShapeOK O.dim nodes then
    let rho := rho0.getD (fun _ => 1)
    let fixed_nodes := fixed_nodes0.getD []
    if ShapeOK O.dim fixed_nodes then
      let neighbors1 := neighbors0.getD (if O.dim = 3 then 4 else 3)
      let neighbors := min neighbors1 ((nodes.length : ℤ) + (fixed_nodes.length : ℤ) - 1)
      .ok (loopN (disperseIter O kq rho fixed_nodes neighbors delta) iterations nodes)
    else .error "fixed_nodes is not a (None, dim) float array"
  else .error "nodes is not a (None, dim) float array"

theorem disperse_step_length (kq : KQ) (nodes : List Vec) (rho : Vec → ℝ)
    (fixed_nodes : List Vec) (neighbors : ℤ) (delta : ℝ) :
    (disperse_step kq nodes rho fixed_nodes neighbors delta).length = nodes.length := by
  unfold disperse_step
  split <;> simp

theorem bounceAll_length (O : DomainO) (old new : List Vec) :
    (bounceAll O old new).length = min old.length new.length := by
  simp [bounceAll]

theorem disperseIter_length (O : DomainO) (kq : KQ) (rho : Vec → ℝ)
    (fixed_nodes : List Vec) (neighbors : ℤ) (delta : ℝ) (nodes : List Vec) :
    (disperseIter O kq rho fixed_nodes neighbors delta nodes).length = nodes.length := by
  simp [disperseIter, bounceAll_length, disperse_step_length]

theorem loopN_fixed {f : α → α} {x : α} (h : f x = x) (n : ℕ) : loopN f n x = x := by
  induction n with
  | zero => rfl
  | succ n ih => rw [loopN, h, ih]

theorem loopN_length_invariant (f : List Vec → List Vec)
    (hf : ∀ l, (f l).length = l.length) (n : ℕ) (x : List Vec) :
    (loopN f n x).length = x.length := by
  induction n generalizing x with
  | zero => rfl
  | succ n ih => rw [loopN, ih, hf]

theorem getD_map_of_lt (f : α → β) (d : α) (d' : β) :
    ∀ (l : List α) (i : ℕ), i < l.length → (l.map f).getD i d' = f (l.getD i d)
  | x :: xs, 0, _ => rfl
  | x :: xs, i + 1, h => by
      simpa using getD_map_of_lt f d d' xs i (by simpa using h)
  | [], i, h => absurd h (by simp)

theorem zipWith_getD (f : α → β → γ) (da : α) (db : β) (dc : γ) :
    ∀ (a : List α) (b : List β) (i : ℕ), i < a.length → i < b.length →
      (List.zipWith f a b).getD i dc = f (a.getD i da) (b.getD i db)
  | x :: xs, y :: ys, 0, _, _ => rfl
  | x :: xs, y :: ys, i + 1, ha, hb => by
      simpa using zipWith_getD f da db dc xs ys i (by simpa using ha) (by simpa using hb)
  | [], _, i, ha, _ => absurd ha (by simp)
  | _ :: _, [], i, _, hb => absurd hb (by simp)

theorem vadd_vsub_cancel : ∀ (a b : Vec), a.length = b.length → vadd a (vsub b a) = b
  | [], [], _ => rfl
  | [], y :: ys, h => absurd h (by simp)
  | x :: xs, [], h => absurd h (by simp)
  | x :: xs, y :: ys, h => by
      have ht := vadd_vsub_cancel xs ys (by simpa using h)
      simp only [vadd, vsub, List.zipWith_cons_cons]
      exact List.cons_eq_cons.mpr ⟨by ring, ht⟩

theorem vdivS_zeroV (n : ℕ) (s : ℝ) : vdivS (zeroV n) s = zeroV n := by
  simp [vdivS, zeroV, List.map_replicate, zero_div]

/-- **C1 (amended)**: in a dispersion iteration, the single-bounce position of
a node whose proposed move crosses the boundary equals the intersection point
*plus the residual* minus `2 * normal * (residual . normal)` — that is, the
residual is reflected and then added at the intersection point. -/
theorem C1_bounce_formula (O : DomainO) (old prop : Vec)
    (hc : O.intrCount old prop ≠ 0)
    (hlen : (O.intrPoint old prop).1.length = prop.length) :
    bounce1 O old prop =
      vsub (vadd (O.intrPoint old prop).1 (vsub prop (O.intrPoint old prop).1))
        (smul (2 * dotV (vsub prop (O.intrPoint old prop).1)
            (O.normals (O.intrPoint old prop).2))
          (O.normals (O.intrPoint old prop).2)) := by
  unfold bounce1
  rw [vadd_vsub_cancel _ _ hlen]

/-- Witness for `C1_bounce_formula` at a concrete crossing configuration. -/
theorem C1_bounce_formula_witness :
    ((DomainO.mk 1 [] 1 (fun _ => [1]) (fun _ _ => 1) (fun _ _ => ([0], 0))
        (fun xs _ => xs.map (fun v => (v, -1)))).intrCount [0] [2] ≠ 0
      ∧ ((DomainO.mk 1 [] 1 (fun _ => [1]) (fun _ _ => 1) (fun _ _ => ([0], 0))
        (fun xs _ => xs.map (fun v => (v, -1)))).intrPoint [0] [2]).1.length =
          ([2] : Vec).length)
    ∧ bounce1 (DomainO.mk 1 [] 1 (fun _ => [1]) (fun _ _ => 1) (fun _ _ => ([0], 0))
        (fun xs _ => xs.map (fun v => (v, -1)))) [0] [2] =
      vsub (vadd ([0] : Vec) (vsub [2] [0]))
        (smul (2 * dotV (vsub [2] [0]) [1]) [1]) :=
  ⟨⟨one_ne_zero, rfl⟩,
    C1_bounce_formula _ [0] [2] one_ne_zero rfl⟩

/-- A concrete 1-dimensional domain oracle: the segment from the origin to
`[-1]` crosses the boundary once, the intersection point is `[-1/2]` on
simplex 0 with outward normal `[-1]`; no other segment crosses. -/
def C1exO : DomainO :=
  DomainO.mk 1 [] 1 (fun _ => [-1])
    (fun _ b => if b = [(-1 : ℝ)] then 1 else 0)
    (fun _ _ => ([-(1 : ℝ) / 2], 0))
    (fun xs _ => xs.map (fun v => (v, -1)))

/-- A concrete KD-tree oracle for a two-point pool: the query point itself at
distance 0, then the other point at distance 1. -/
def C1exKQ : KQ := fun _ _ _ => [((0 : ℝ), (0 : ℕ)), ((1 : ℝ), (1 : ℕ))]

/-- **C1 counterexample**: a one-iteration `disperse` run with one free node
at the origin and one fixed node at `[1]`.  The proposed move is to `[-1]`,
which crosses the boundary; the bounced (and returned) position is `[0]`,
while the claimed formula `intersection - 2*normal*(residual . normal)`
gives `[1/2]`. -/
theorem C1_counterexample :
    disperse C1exO C1exKQ [[0]] 1 none (some [[1]]) (some 1) 1 = .ok [[0]]
    ∧ disperse_step C1exKQ [[0]] (fun _ => 1) [[1]] 1 1 = [[-1]]
    ∧ C1exO.intrCount [0] [-1] ≠ 0
    ∧ bounce1 C1exO [0] [-1] = [0]
    ∧ bounce1 C1exO [0] [-1] ≠
        vsub (C1exO.intrPoint [0] [-1]).1
          (smul (2 * dotV (vsub [-1] (C1exO.intrPoint [0] [-1]).1)
              (C1exO.normals (C1exO.intrPoint [0] [-1]).2))
            (C1exO.normals (C1exO.intrPoint [0] [-1]).2)) := by
  have hstep : disperse_step C1exKQ [[0]] (fun _ => 1) [[1]] 1 1 = [[-1]] := by
    have h1 : ([[(0 : ℝ)], [1]] : List Vec)[1] = [1] := rfl
    unfold disperse_step C1exKQ
    norm_num [vsumL, vadd, vsub, smul, vdivS, dotV, vnorm, zeroV, h1,
      List.sum_cons, List.sum_nil, Real.sqrt_one]
  have hbounce : bounce1 C1exO [0] [-1] = [0] := by
    unfold bounce1 C1exO
    norm_num [vsub, smul, dotV]
  refine ⟨?_, hstep, ?_, hbounce, ?_⟩
  · unfold disperse
    rw [if_pos (by intro v hv; simp at hv; simp [hv, C1exO])]
    rw [if_pos (by intro v hv; simp at hv; simp [hv, C1exO])]
    show Except.ok (loopN _ 1 _) = _
    rw [loopN, loopN]
    refine congrArg Except.ok ?_
    show bounceAll C1exO [[0]]
      (disperse_step C1exKQ [[0]] ((none : Option (Vec → ℝ)).getD (fun _ => 1))
        ((some [[(1 : ℝ)]]).getD []) (min 1 (1 + 1 - 1)) 1) = [[0]]
    rw [show ((none : Option (Vec → ℝ)).getD (fun _ => 1)) = (fun _ : Vec => (1 : ℝ)) from rfl]
    rw [show ((some [[(1 : ℝ)]]).getD [] : List Vec) = [[1]] from rfl]
    rw [show (min 1 (1 + 1 - 1) : ℤ) = 1 by norm_num]
    rw [hstep]
    show [bounceNode C1exO [0] [-1]] = [[0]]
    unfold bounceNode
    rw [if_neg (by unfold C1exO; norm_num), hbounce]
    rw [if_pos (by unfold C1exO; norm_num)]
  · unfold C1exO
    norm_num
  · rw [hbounce]
    unfold C1exO
    norm_num [vsub, smul, dotV]

theorem zeroV_length (n : ℕ) : (zeroV n).length = n := by
  simp [zeroV]

theorem vdivS_smul_one_div (a c : ℝ) (v : Vec) :
    vdivS (smul (1 / a) v) c = vdivS v (a * c) := by
  simp only [vdivS, smul, List.map_map]
  have hcomp : ((fun x => x / c) ∘ fun x => 1 / a * x) = fun x : ℝ => x / (a * c) := by
    funext x
    simp only [Function.comp]
    rw [one_div, inv_mul_eq_div, div_div]
  rw [hcomp]

/-- **C4**: row `i` of `_disperse_step` on a non-empty free-node set equals
`nodes[i] + delta * d_i * u_i`, where `d_i` is the reported distance to the
nearest other point of the merged free+fixed pool, `u_i` is the
unit-normalized sum over the reported nearest neighbors of the pairwise
forces `(nodes[i] - nbr) / (rho(nbr) * rho(nodes[i]) * dist^3)`, and `u_i`
is the zero vector (so the node does not move and no fault occurs) exactly
when the net force is the zero vector. -/
theorem C4_disperse_step_formula (kq : KQ) (nodes : List Vec) (rho : Vec → ℝ)
    (fixed_nodes : List Vec) (neighbors : ℤ) (delta : ℝ) (i : ℕ)
    (hi : i < nodes.length) :
    (let x := nodes.getD i []
     let pool := nodes ++ fixed_nodes
     let nbrs := (kq pool x (neighbors + 1)).drop 1
     let F := vsumL x.length (nbrs.map (fun p =>
       vdivS (vsub x (pool.getD p.2 []))
         (rho (pool.getD p.2 []) * rho x * p.1 ^ 3)))
     let u := if F = zeroV F.length then zeroV F.length else vdivS F (vnorm F)
     (disperse_step kq nodes rho fixed_nodes neighbors delta).getD i [] =
       vadd x (smul (delta * (nbrs.headD ((0 : ℝ), (0 : ℕ))).1) u)) := by
  dsimp only
  have hne : ¬ nodes.length = 0 := by omega
  unfold disperse_step
  rw [if_neg hne]
  rw [getD_map_of_lt _ ([] : Vec) ([] : Vec) nodes i hi]
  dsimp only
  have hfun : (fun p : ℝ × ℕ =>
        vdivS (smul (1 / (rho ((nodes ++ fixed_nodes).getD p.2 []) * rho (nodes.getD i [])))
          (vsub (nodes.getD i []) ((nodes ++ fixed_nodes).getD p.2 []))) (p.1 ^ 3)) =
      (fun p : ℝ × ℕ =>
        vdivS (vsub (nodes.getD i []) ((nodes ++ fixed_nodes).getD p.2 []))
          (rho ((nodes ++ fixed_nodes).getD p.2 []) * rho (nodes.getD i []) * p.1 ^ 3)) := by
    funext p
    exact vdivS_smul_one_div _ _ _
  rw [hfun]
  by_cases hz :
      vsumL (nodes.getD i []).length
        (((kq (nodes ++ fixed_nodes) (nodes.getD i []) (neighbors + 1)).drop 1).map
          (fun p : ℝ × ℕ =>
            vdivS (vsub (nodes.getD i []) ((nodes ++ fixed_nodes).getD p.2 []))
              (rho ((nodes ++ fixed_nodes).getD p.2 []) * rho (nodes.getD i []) * p.1 ^ 3))) =
      zeroV (vsumL (nodes.getD i []).length
        (((kq (nodes ++ fixed_nodes) (nodes.getD i []) (neighbors + 1)).drop 1).map
          (fun p : ℝ × ℕ =>
            vdivS (vsub (nodes.getD i []) ((nodes ++ fixed_nodes).getD p.2 []))
              (rho ((nodes ++ fixed_nodes).getD p.2 []) * rho (nodes.getD i []) * p.1 ^ 3)))).length
  · rw [if_pos hz, hz, vdivS_zeroV, zeroV_length]
  · rw [if_neg hz]

/-- Witness for `C4_disperse_step_formula`: one free node at the origin and
one fixed node at `[1]` in one dimension. -/
theorem C4_disperse_step_formula_witness :
    0 < ([[(0 : ℝ)]] : List Vec).length ∧
      (let x := ([[(0 : ℝ)]] : List Vec).getD 0 []
       let pool := ([[(0 : ℝ)]] : List Vec) ++ [[1]]
       let nbrs := (C1exKQ pool x ((1 : ℤ) + 1)).drop 1
       let F := vsumL x.length (nbrs.map (fun p =>
         vdivS (vsub x (pool.getD p.2 []))
           ((fun _ : Vec => (1 : ℝ)) (pool.getD p.2 []) * (fun _ : Vec => (1 : ℝ)) x * p.1 ^ 3)))
       let u := if F = zeroV F.length then zeroV F.length else vdivS F (vnorm F)
       (disperse_step C1exKQ [[0]] (fun _ => 1) [[1]] 1 1).getD 0 [] =
         vadd x (smul (1 * (nbrs.headD ((0 : ℝ), (0 : ℕ))).1) u)) :=
  ⟨by norm_num,
    C4_disperse_step_formula C1exKQ [[0]] (fun _ => 1) [[1]] 1 1 0 (by norm_num)⟩

/-- **C5**: after each `disperse` iteration the segment from a node's
pre-iteration position to its post-iteration position does not cross the
boundary (the external intersection primitive reports no crossing for a
degenerate point segment); and a node whose single-bounce position still
crosses the boundary is set back exactly to its pre-iteration position. -/
theorem C5_no_boundary_crossing (O : DomainO) (kq : KQ) (rho : Vec → ℝ)
    (fixed_nodes : List Vec) (neighbors : ℤ) (delta : ℝ) (nodes : List Vec)
    (hdeg : ∀ p : Vec, O.intrCount p p = 0) (i : ℕ) (hi : i < nodes.length) :
    O.intrCount (nodes.getD i [])
      ((disperseIter O kq rho fixed_nodes neighbors delta nodes).getD i []) = 0
    ∧ (O.intrCount (nodes.getD i [])
          ((disperse_step kq nodes rho fixed_nodes neighbors delta).getD i []) ≠ 0 →
        O.intrCount (nodes.getD i [])
          (bounce1 O (nodes.getD i [])
            ((disperse_step kq nodes rho fixed_nodes neighbors delta).getD i [])) ≠ 0 →
        (disperseIter O kq rho fixed_nodes neighbors delta nodes).getD i [] =
          nodes.getD i []) := by
  have hlen : i < (disperse_step kq nodes rho fixed_nodes neighbors delta).length := by
    rw [disperse_step_length]; exact hi
  have hpost : (disperseIter O kq rho fixed_nodes neighbors delta nodes).getD i [] =
      bounceNode O (nodes.getD i [])
        ((disperse_step kq nodes rho fixed_nodes neighbors delta).getD i []) := by
    unfold disperseIter bounceAll
    exact zipWith_getD (bounceNode O) [] [] [] nodes _ i hi hlen
  rw [hpost]
  unfold bounceNode
  by_cases h1 : O.intrCount (nodes.getD i [])
      ((disperse_step kq nodes rho fixed_nodes neighbors delta).getD i []) = 0
  · rw [if_pos h1]
    exact ⟨h1, fun hc _ => absurd h1 hc⟩
  · rw [if_neg h1]
    by_cases h2 : O.intrCount (nodes.getD i [])
        (bounce1 O (nodes.getD i [])
          ((disperse_step kq nodes rho fixed_nodes neighbors delta).getD i [])) = 0
    · rw [if_pos h2]
      exact ⟨h2, fun _ hc => absurd h2 hc⟩
    · rw [if_neg h2]
      exact ⟨hdeg _, fun _ _ => rfl⟩

/-- Witness for `C5_no_boundary_crossing`: a domain oracle that reports no
crossings at all. -/
theorem C5_no_boundary_crossing_witness :
    (∀ p : Vec, (DomainO.mk 1 [] 1 (fun _ => [1]) (fun _ _ => 0)
        (fun _ _ => ([0], 0)) (fun xs _ => xs.map (fun v => (v, -1)))).intrCount p p = 0)
    ∧ 0 < ([[(0 : ℝ)]] : List Vec).length
    ∧ ((DomainO.mk 1 [] 1 (fun _ => [1]) (fun _ _ => 0)
          (fun _ _ => ([0], 0)) (fun xs _ => xs.map (fun v => (v, -1)))).intrCount
        (([[(0 : ℝ)]] : List Vec).getD 0 [])
        ((disperseIter (DomainO.mk 1 [] 1 (fun _ => [1]) (fun _ _ => 0)
            (fun _ _ => ([0], 0)) (fun xs _ => xs.map (fun v => (v, -1))))
          C1exKQ (fun _ => 1) [[1]] 1 1 [[0]]).getD 0 []) = 0) :=
  ⟨fun _ => rfl, by norm_num,
    (C5_no_boundary_crossing _ C1exKQ (fun _ => 1) [[1]] 1 1 [[0]]
      (fun _ => rfl) 0 (by norm_num)).1⟩

/-- **C9**: on an empty free-node set `disperse` is a no-op returning an
empty copy, for every iteration count and every behaviour of the KD-tree
oracle (so the zero-sized neighbor query cannot fault or affect the
result). -/
theorem C9_empty_noop (O : DomainO) (kq : KQ) (iterations : ℕ)
    (rho0 : Option (Vec → ℝ)) (fixed0 : Option (List Vec)) (neighbors0 : Option ℤ)
    (delta : ℝ) (hf : ShapeOK O.dim (fixed0.getD [])) :
    disperse O kq [] iterations rho0 fixed0 neighbors0 delta = .ok [] := by
  unfold disperse
  rw [if_pos (show ShapeOK O.dim [] from fun v hv => absurd hv (List.not_mem_nil v))]
  dsimp only
  rw [if_pos hf]
  refine congrArg Except.ok ?_
  refine loopN_fixed ?_ iterations
  simp [disperseIter, bounceAll]

/-- Witness for `C9_empty_noop`. -/
theorem C9_empty_noop_witness :
    ShapeOK C1exO.dim ((none : Option (List Vec)).getD []) ∧
      disperse C1exO C1exKQ [] 7 none none none 1 = .ok [] :=
  ⟨fun v hv => absurd hv (List.not_mem_nil v),
    C9_empty_noop C1exO C1exKQ 7 none none none 1
      (fun v hv => absurd hv (List.not_mem_nil v))⟩

theorem getD_set_ne : ∀ (l : List α) (i k : ℕ) (v d : α), i ≠ k →
    (l.set i v).getD k d = l.getD k d
  | [], _, _, _, _, _ => rfl
  | _ :: _, 0, 0, _, _, h => absurd rfl h
  | _ :: _, 0, _ + 1, _, _, _ => rfl
  | _ :: _, _ + 1, 0, _, _, _ => rfl
  | _ :: xs, i + 1, k + 1, v, d, h => by
      simpa using getD_set_ne xs i k v d (fun he => h (by rw [he]))

theorem getD_set_self : ∀ (l : List α) (i : ℕ) (v d : α), i < l.length →
    (l.set i v).getD i d = v
  | _ :: _, 0, _, _, _ => rfl
  | _ :: xs, i + 1, v, d, h => by simpa using getD_set_self xs i v d (by simpa using h)
  | [], _, _, _, h => absurd h (by simp)

theorem getD_append_lt : ∀ (l l' : List α) (k : ℕ) (d : α), k < l.length →
    (l ++ l').getD k d = l.getD k d
  | _ :: _, _, 0, _, _ => rfl
  | x :: xs, l', k + 1, d, h => by simpa using getD_append_lt xs l' k d (by simpa using h)
  | [], _, _, _, h => absurd h (by simp)

theorem getD_append_length : ∀ (l : List α) (a d : α), (l ++ [a]).getD l.length d = a
  | [], _, _ => rfl
  | x :: xs, a, d => by simpa using getD_append_length xs a d

/-- Heap of numpy float arrays in allocation order.  The mutating numpy
writes of the source are modelled as stores into this heap; `np.asarray` on
a float array aliases (keeps the same heap index) and fresh arrays are
appended at the end. -/
abbrev Heap := List (List Vec)

/-- Read the array stored at heap index `i`. -/
def hget (h : Heap) (i : ℕ) : List Vec := h.getD i []

/-- One `disperse` iteration in the heap model (nodes.py lines 130-164): the
array `nodes + step` produced by `_disperse_step` is a fresh allocation; the
bounce and revert scatter-writes (`new_nodes[crossed] -= ...` and
`new_nodes[crossed[still_crossed]] = nodes[crossed[still_crossed]]`) store
into that fresh array only; the loop variable is then rebound to it. -/
def disperseIterH (O : DomainO) (kq : KQ) (rho : Vec → ℝ) (fixedId : ℕ)
    (neighbors : ℤ) (delta : ℝ) (st : Heap × ℕ) : Heap × ℕ :=
  let h := st.1
  let cur := st.2
  let prop := disperse_step kq (hget h cur) rho (hget h fixedId) neighbors delta
  let h1 := h ++ [prop]
  let nid := h.length
  let bounced := bounceAll O (hget h1 cur) (hget h1 nid)
  (h1.set nid bounced, nid)

/-- The `disperse` iteration loop in the heap model; the caller's free-node
array lives at heap index `cur` and the fixed-node array at `fixedId`. -/
def disperseH (O : DomainO) (kq : KQ) (rho : Vec → ℝ) (fixedId : ℕ)
    (neighbors : ℤ) (delta : ℝ) (iterations : ℕ) (h : Heap) (cur : ℕ) : Heap × ℕ :=
  loopN (disperseIterH O kq rho fixedId neighbors delta) iterations (h, cur)

/-- **C10**: the `disperse` loop never mutates pre-existing arrays — in
particular the caller's free-node and fixed-node arrays keep their values —
because every iteration allocates a fresh output array and directs all
bounce/revert writes at it; moreover the array finally returned holds
exactly the value of the pure iteration `disperseIter` applied
`iterations` times to the caller's free-node array. -/
theorem C10_no_mutation (O : DomainO) (kq : KQ) (rho : Vec → ℝ) (fixedId : ℕ)
    (neighbors : ℤ) (delta : ℝ) (iterations : ℕ) (h : Heap) (cur : ℕ)
    (hcur : cur < h.length) (hfix : fixedId < h.length) :
    (∀ k, k < h.length →
        hget (disperseH O kq rho fixedId neighbors delta iterations h cur).1 k = hget h k)
    ∧ (disperseH O kq rho fixedId neighbors delta iterations h cur).2 <
        (disperseH O kq rho fixedId neighbors delta iterations h cur).1.length
    ∧ hget (disperseH O kq rho fixedId neighbors delta iterations h cur).1
        (disperseH O kq rho fixedId neighbors delta iterations h cur).2 =
      loopN (disperseIter O kq rho (hget h fixedId) neighbors delta) iterations
        (hget h cur) := by
  induction iterations generalizing h cur with
  | zero => exact ⟨fun k _ => rfl, hcur, rfl⟩
  | succ n ih =>
      have hstep : disperseIterH O kq rho fixedId neighbors delta (h, cur) =
          ((h ++ [disperse_step kq (hget h cur) rho (hget h fixedId) neighbors delta]).set
              h.length
              (bounceAll O
                (hget (h ++ [disperse_step kq (hget h cur) rho (hget h fixedId) neighbors delta]) cur)
                (hget (h ++ [disperse_step kq (hget h cur) rho (hget h fixedId) neighbors delta]) h.length)),
            h.length) := rfl
      set prop := disperse_step kq (hget h cur) rho (hget h fixedId) neighbors delta with hprop
      set h2 := (h ++ [prop]).set h.length
        (bounceAll O (hget (h ++ [prop]) cur) (hget (h ++ [prop]) h.length)) with hh2
      have hlen2 : h2.length = h.length + 1 := by
        rw [hh2, List.length_set, List.length_append, List.length_singleton]
      have hpres : ∀ k, k < h.length → hget h2 k = hget h k := by
        intro k hk
        rw [hh2]
        unfold hget
        rw [getD_set_ne _ _ _ _ _ (Nat.ne_of_gt hk)]
        exact getD_append_lt h [prop] k [] hk
      have hcurval : hget (h ++ [prop]) cur = hget h cur :=
        getD_append_lt h [prop] cur [] hcur
      have hnewval : hget (h ++ [prop]) h.length = prop :=
        getD_append_length h prop []
      have hset2 : hget h2 h.length =
          bounceAll O (hget (h ++ [prop]) cur) (hget (h ++ [prop]) h.length) := by
        rw [hh2]
        unfold hget
        exact getD_set_self _ _ _ _ (by rw [List.length_append, List.length_singleton]; omega)
      have hval2 : hget h2 h.length =
          disperseIter O kq rho (hget h fixedId) neighbors delta (hget h cur) := by
        rw [hset2, hcurval, hnewval, hprop]
        rfl
      have hunf : disperseH O kq rho fixedId neighbors delta (n + 1) h cur =
          disperseH O kq rho fixedId neighbors delta n h2 h.length := by
        unfold disperseH
        rw [loopN, hstep, hh2]
      have hfix2 : fixedId < h2.length := by omega
      have hcur2 : h.length < h2.length := by omega
      obtain ⟨ihpres, ihlt, ihval⟩ := ih h2 h.length hcur2 hfix2
      refine ⟨?_, ?_, ?_⟩
      · intro k hk
        rw [hunf, ihpres k (by omega)]
        exact hpres k hk
      · rw [hunf]; exact ihlt
      · rw [hunf, ihval, hval2, hpres fixedId hfix]
        rfl

/-- Witness for `C10_no_mutation`: a two-array heap (the caller's free-node
and fixed-node arrays), one iteration of a concrete run. -/
theorem C10_no_mutation_witness :
    ((0 : ℕ) < ([[[(0 : ℝ)]], [[(1 : ℝ)]]] : Heap).length
        ∧ (1 : ℕ) < ([[[(0 : ℝ)]], [[(1 : ℝ)]]] : Heap).length)
    ∧ (∀ k, k < ([[[(0 : ℝ)]], [[(1 : ℝ)]]] : Heap).length →
        hget (disperseH C1exO C1exKQ (fun _ => 1) 1 1 1 1 [[[(0 : ℝ)]], [[(1 : ℝ)]]] 0).1 k =
          hget [[[(0 : ℝ)]], [[(1 : ℝ)]]] k) :=
  ⟨⟨by norm_num, by norm_num⟩,
    (C10_no_mutation C1exO C1exKQ (fun _ => 1) 1 1 1 1
      [[[(0 : ℝ)]], [[(1 : ℝ)]]] 0 (by norm_num) (by norm_num)).1⟩

/-- `np.argsort`, specialised to the inputs it receives in the source: a
permutation of `range(n)` returned by `reverse_cuthill_mckee`.  Entry `k` is
the position of the value `k` inside `p`, which for a duplicate-free input
is exactly the index returned by the stable sort of `np.argsort`. -/
def np_argsort (p : List ℕ) : List ℕ :=
  (List.range p.length).map (fun k => p.indexOf k)

/-- nodes.py lines 473-478: apply the sorting permutation to the node and
normal arrays (`nodes[sort_idx]`, `normals[sort_idx]`) and remap every
group's indices through `reverse_sort_idx = np.argsort(sort_idx)`. -/
def reorderStep (p : List ℕ)
    (st : List Vec × List (Option Vec) × List (String × List ℕ)) :
    List Vec × List (Option Vec) × List (String × List ℕ) :=
  (npIndex [] p st.1, npIndex none p st.2.1,
    st.2.2.map (fun kv => (kv.1, npIndex 0 kv.2 (np_argsort p))))

theorem perm_range_length {p : List ℕ} {n : ℕ} (hp : p.Perm (List.range n)) :
    p.length = n := by
  simpa using hp.length_eq

theorem perm_range_indexOf_lt {p : List ℕ} {n : ℕ} (hp : p.Perm (List.range n))
    (k : ℕ) (hk : k < n) : p.indexOf k < p.length :=
  List.indexOf_lt_length.mpr (hp.mem_iff.mpr (List.mem_range.mpr hk))

theorem perm_range_getD_indexOf {p : List ℕ} {n : ℕ} (hp : p.Perm (List.range n))
    (k : ℕ) (hk : k < n) : p.getD (p.indexOf k) 0 = k := by
  rw [List.getD_eq_get _ _ (perm_range_indexOf_lt hp k hk)]
  exact List.indexOf_get _

theorem perm_range_getD_lt {p : List ℕ} {n : ℕ} (hp : p.Perm (List.range n))
    (j : ℕ) (hj : j < p.length) : p.getD j 0 < n := by
  have hmem : p.getD j 0 ∈ p := by
    rw [List.getD_eq_get _ _ hj]
    exact List.get_mem p j hj
  simpa [List.mem_range] using hp.mem_iff.mp hmem

theorem perm_range_indexOf_getD {p : List ℕ} {n : ℕ} (hp : p.Perm (List.range n))
    (j : ℕ) (hj : j < p.length) : p.indexOf (p.getD j 0) = j := by
  have hnd : p.Nodup := hp.nodup_iff.mpr (List.nodup_range n)
  have hmem : p.getD j 0 ∈ p := by
    rw [List.getD_eq_get _ _ hj]
    exact List.get_mem p j hj
  have hlt := List.indexOf_lt_length.mpr hmem
  have h1 : p.get ⟨p.indexOf (p.getD j 0), hlt⟩ = p.getD j 0 := List.indexOf_get _
  have h2 : p.getD j 0 = p.get ⟨j, hj⟩ := List.getD_eq_get _ _ hj
  have h3 : p.get ⟨p.indexOf (p.getD j 0), hlt⟩ = p.get ⟨j, hj⟩ := by rw [h1, h2]
  have h4 := (List.Nodup.get_inj_iff hnd).mp h3
  exact congrArg Fin.val h4

theorem np_argsort_getD (p : List ℕ) (k : ℕ) (hk : k < p.length) :
    (np_argsort p).getD k 0 = p.indexOf k := by
  unfold np_argsort
  rw [getD_map_of_lt _ 0 0 _ k (by simpa using hk)]
  congr 1
  rw [List.getD_eq_get _ _ (by simpa using hk)]
  exact List.get_range _ _

/-- **C2**: in the reorder step of `prepare_nodes`, applying the sorting
permutation to the node and normal arrays and remapping a group index
through `np.argsort` of the permutation preserves every
(position, group-name) association: the remapped index of `i` points at the
same node row and the same normal row as `i` did before, inside the group
of the same name. -/
theorem C2_reorder_roundtrip (nodes : List Vec) (normals : List (Option Vec))
    (groups : List (String × List ℕ)) (p : List ℕ)
    (hp : p.Perm (List.range nodes.length))
    (_hn : normals.length = nodes.length)
    (g : String × List ℕ) (hg : g ∈ groups) (i : ℕ) (hi : i ∈ g.2)
    (hiv : i < nodes.length) :
    ((g.1, npIndex 0 g.2 (np_argsort p)) ∈ (reorderStep p (nodes, normals, groups)).2.2
    ∧ (np_argsort p).getD i 0 ∈ npIndex 0 g.2 (np_argsort p))
    ∧ (reorderStep p (nodes, normals, groups)).1.getD ((np_argsort p).getD i 0) [] =
        nodes.getD i []
    ∧ (reorderStep p (nodes, normals, groups)).2.1.getD ((np_argsort p).getD i 0) none =
        normals.getD i none := by
  have hplen : p.length = nodes.length := perm_range_length hp
  have hip : i < p.length := by omega
  have hj : (np_argsort p).getD i 0 = p.indexOf i := np_argsort_getD p i hip
  have hjlt : p.indexOf i < p.length := perm_range_indexOf_lt hp i hiv
  have hback : p.getD (p.indexOf i) 0 = i := perm_range_getD_indexOf hp i hiv
  refine ⟨⟨?_, ?_⟩, ?_, ?_⟩
  · exact List.mem_map_of_mem (fun kv => (kv.1, npIndex 0 kv.2 (np_argsort p))) hg
  · exact List.mem_map_of_mem (fun t => (np_argsort p).getD t 0) hi
  · show (npIndex [] p nodes).getD ((np_argsort p).getD i 0) [] = nodes.getD i []
    rw [hj]
    unfold npIndex
    rw [getD_map_of_lt _ 0 [] p _ hjlt, hback]
  · show (npIndex none p normals).getD ((np_argsort p).getD i 0) none = normals.getD i none
    rw [hj]
    unfold npIndex
    rw [getD_map_of_lt _ 0 none p _ hjlt, hback]

/-- Witness for `C2_reorder_roundtrip`: three nodes, the permutation
`[2, 0, 1]`, and a one-element group. -/
theorem C2_reorder_roundtrip_witness :
    (([2, 0, 1] : List ℕ).Perm (List.range ([[(0 : ℝ)], [1], [2]] : List Vec).length)
      ∧ ([some [1], none, none] : List (Option Vec)).length =
          ([[(0 : ℝ)], [1], [2]] : List Vec).length
      ∧ ("interior", [1]) ∈ ([("interior", [1])] : List (String × List ℕ))
      ∧ 1 ∈ [1] ∧ 1 < ([[(0 : ℝ)], [1], [2]] : List Vec).length)
    ∧ (reorderStep [2, 0, 1]
        ([[(0 : ℝ)], [1], [2]], [some [1], none, none], [("interior", [1])])).1.getD
          ((np_argsort [2, 0, 1]).getD 1 0) [] =
        ([[(0 : ℝ)], [1], [2]] : List Vec).getD 1 [] :=
  ⟨⟨by decide, rfl, by decide, by decide, by decide⟩,
    (C2_reorder_roundtrip [[0], [1], [2]] [some [1], none, none] [("interior", [1])]
      [2, 0, 1] (by decide) rfl ("interior", [1]) (by decide) 1 (by decide)
      (by decide)).2.1⟩

/-- Python dict access `groups[k]` over the insertion-ordered group mapping
(the pipeline never creates duplicate keys). -/
def lookupG : List (String × List ℕ) → String → Option (List ℕ)
  | [], _ => none
  | kv :: rest, k => if kv.1 = k then some kv.2 else lookupG rest k

/-- Dispersion and optional vertex append inside `prepare_nodes`
(nodes.py lines 370-395): the fixed repulsion pool is the pinned nodes
followed by the domain vertices when `include_vertices` is set, and the
vertices are appended to the dispersed nodes afterwards. -/
def prepDispersed (O : DomainO) (kq : KQ) (nodes : List Vec)
    (rho0 : Option (Vec → ℝ)) (iterations : ℕ) (neighbors0 : Option ℤ)
    (dispersion_delta : ℝ) (pinned_nodes0 : Option (List Vec))
    (include_vertices : Bool) : Except String (List Vec) :=
  (disperse O kq nodes iterations rho0
      (some ((pinned_nodes0.getD []) ++ (if include_vertices then O.vertices else [])))
      neighbors0 dispersion_delta).map
    (fun ns => ns ++ (if include_vertices then O.vertices else []))

/-- Snap stage (nodes.py line 400):
`nodes, smpid = domain.snap(nodes, delta=snap_delta)`. -/
def prepSnapped (O : DomainO) (kq : KQ) (nodes : List Vec)
    (rho0 : Option (Vec → ℝ)) (iterations : ℕ) (neighbors0 : Option ℤ)
    (dispersion_delta : ℝ) (pinned_nodes0 : Option (List Vec)) (snap_delta : ℝ)
    (include_vertices : Bool) : Except String (List Vec × List ℤ) :=
  (prepDispersed O kq nodes rho0 iterations neighbors0 dispersion_delta
      pinned_nodes0 include_vertices).map
    (fun ns => ((O.snap ns snap_delta).map Prod.fst, (O.snap ns snap_delta).map Prod.snd))

/-- Normals derivation (nodes.py lines 403-404): one row per node, NaN
(modelled as `none`) everywhere, overwritten with the simplex outward normal
for every node with a nonnegative snap index. -/
def normalsFromSmpid (O : DomainO) (n : ℕ) (smpid : List ℤ) : List (Option Vec) :=
  (List.range n).map (fun i =>
    if 0 ≤ smpid.getD i (-1) then some (O.normals (smpid.getD i (-1)).toNat) else none)

/-- Interior group (nodes.py line 408): `(smpid == -1).nonzero()`. -/
def interiorIdx (smpid : List ℤ) : List ℕ :=
  (List.range smpid.length).filter (fun i => smpid.getD i 0 = -1)

/-- Pinned-node append (nodes.py lines 407-416): the `interior` group entry,
then — only when pinned nodes were supplied — the pinned rows with NaN
normals and the `pinned` group of their fresh indices. -/
def pinnedStage (ns : List Vec) (normals : List (Option Vec))
    (smpid : List ℤ) (pinned_nodes0 : Option (List Vec)) :
    List Vec × List (Option Vec) × List (String × List ℕ) :=
  match pinned_nodes0 with
  | none => (ns, normals, [("interior", interiorIdx smpid)])
  | some pn =>
      (ns ++ pn, normals ++ pn.map (fun _ => none),
        [("interior", interiorIdx smpid),
         ("pinned", (List.range pn.length).map (fun k => k + ns.length))])

/-- Effective boundary groups (nodes.py lines 420-425): by default a single
group `all` containing every simplex index. -/
def effBoundaryGroups (q : ℕ) (bgs0 : Option (List (String × List ℤ))) :
    List (String × List ℤ) :=
  match bgs0 with
  | none => [("all", (List.range q).map (fun s => (s : ℤ)))]
  | some B => B

/-- Validation of caller-supplied boundary groups (nodes.py lines 427-441):
simplices claimed zero or several times are only logged as warnings (no
effect on the result), but a referenced simplex index outside
`range(len(smp))` raises a `ValueError`. -/
def validateBoundaryGroups (q : ℕ) (bgs0 : Option (List (String × List ℤ))) :
    Except String Unit :=
  match bgs0 with
  | none => .ok ()
  | some B =>
      if B.any (fun kv => kv.2.any (fun s => decide (s < 0 ∨ (q : ℤ) ≤ s))) then
        .error "simplex indices specified in the boundary groups do not exist"
      else .ok ()

/-- The simplex-to-node buckets (nodes.py lines 448-451): bucket `s` lists,
in ascending order, the node indices snapped onto simplex `s`.  Under the
snap contract every entry of `smpid` lies in `{-1} ∪ [0, nsimp)`, and the
imperative append loop of the source produces exactly these filters. -/
def smpToNodes (smpid : List ℤ) (s : ℕ) : List ℕ :=
  (List.range smpid.length).filter (fun i => smpid.getD i 0 = (s : ℤ))

/-- Boundary node groups (nodes.py lines 453-455): for each boundary group,
concatenate the buckets of its simplices, under the name prefixed with
`boundary:`. -/
def boundaryStage (smpid : List ℤ) (B : List (String × List ℤ))
    (G : List (String × List ℕ)) : List (String × List ℕ) :=
  G ++ B.map (fun kv =>
    ("boundary:" ++ kv.1, (kv.2.map (fun s => smpToNodes smpid s.toNat)).flatten))

/-- One pass of the ghost loop (nodes.py lines 461-469) for group `name`:
the KD tree was built on the node set from before the loop (`pool`); the
spacing is `ghost_delta` times the reported distance from the boundary node
to its nearest other node; the ghost sits at `node + spacing * normal`;
ghost rows get NaN normals and a fresh index block recorded under
`ghosts:name`.  A name without a matching boundary group raises `KeyError`. -/
def ghostStep (kq : KQ) (pool : List Vec) (ghost_delta : ℝ)
    (st : List Vec × List (Option Vec) × List (String × List ℕ)) (name : String) :
    Except String (List Vec × List (Option Vec) × List (String × List ℕ)) :=
  match lookupG st.2.2 ("boundary:" ++ name) with
  | none => .error ("KeyError: boundary:" ++ name)
  | some bidx =>
      let ns := st.1
      let nm := st.2.1
      let gpos := bidx.map (fun b =>
        vadd (ns.getD b [])
          (smul (ghost_delta * ((kq pool (ns.getD b []) 2).getD 1 ((0 : ℝ), (0 : ℕ))).1)
            ((nm.getD b none).getD [])))
      .ok (ns ++ gpos, nm ++ gpos.map (fun _ => none),
        st.2.2 ++ [("ghosts:" ++ name, (List.range bidx.length).map (fun k => k + ns.length))])

/-- Source `prepare_nodes` (nodes.py lines 254-486): disperse, optionally
append the domain vertices, snap to the boundary, derive normals, build the
`interior` and `pinned` groups, validate and build the boundary groups,
synthesize ghost nodes, reorder everything by the `neighbor_argsort`
permutation (the external reverse-Cuthill-McKee result, oracle `nas`), and
return the triple (nodes, groups, normals).  `_check_spacing` only logs
warnings and does not affect the result; `orient_simplices` mutates only
the external domain object, which the oracle models as already oriented. -/
def prepare_nodes (O : DomainO) (kq : KQ) (nas : List Vec → List ℕ)
    (nodes : List Vec) (rho0 : Option (Vec → ℝ)) (iterations : ℕ)
    (neighbors0 : Option ℤ) (dispersion_delta : ℝ)
    (pinned_nodes0 : Option (List Vec)) (snap_delta : ℝ)
    (boundary_groups0 : Option (List (String × List ℤ)))
    (boundary_groups_with_ghosts : List String) (ghost_delta : ℝ)
    (include_vertices : Bool) :
    Except String (List Vec × List (String × List ℕ) × List (Option Vec)) := do
  let snapped ← prepSnapped O kq nodes rho0 iterations neighbors0
    dispersion_delta pinned_nodes0 snap_delta include_vertices
  let ns1 := snapped.1
  let smpid := snapped.2
  let normals1 := normalsFromSmpid O ns1.length smpid
  let st2 := pinnedStage ns1 normals1 smpid pinned_nodes0
  let _ ← validateBoundaryGroups O.nsimp boundary_groups0
  let B := effBoundaryGroups O.nsimp boundary_groups0
  let st3 ← boundary_groups_with_ghosts.foldlM
    (ghostStep kq st2.1 ghost_delta)
    (st2.1, st2.2.1, boundaryStage smpid B st2.2.2)
  let st4 := reorderStep (nas st3.1) st3
  return (st4.1, st4.2.2, st4.2.1)

theorem except_bind_ok (v : α) (f : α → Except String β) :
    (Except.ok v >>= f) = f v := rfl

theorem except_bind_error (msg : String) (f : α → Except String β) :
    ((Except.error msg : Except String α) >>= f) = .error msg := rfl

theorem disperse_ok (O : DomainO) (kq : KQ) (nodes : List Vec) (iterations : ℕ)
    (rho0 : Option (Vec → ℝ)) (fixed0 : Option (List Vec)) (neighbors0 : Option ℤ)
    (delta : ℝ) (hn : ShapeOK O.dim nodes) (hf : ShapeOK O.dim (fixed0.getD [])) :
    disperse O kq nodes iterations rho0 fixed0 neighbors0 delta =
      .ok (loopN (disperseIter O kq (rho0.getD (fun _ => 1)) (fixed0.getD [])
          (min (neighbors0.getD (if O.dim = 3 then 4 else 3))
            ((nodes.length : ℤ) + ((fixed0.getD [] : List Vec).length : ℤ) - 1)) delta)
        iterations nodes) := by
  unfold disperse
  rw [if_pos hn]
  dsimp only
  rw [if_pos hf]

/-- The dispersed, vertex-appended, snapped node array and snap indices, as
one closed expression (used to discharge the stages of `prepare_nodes` once
the shape asserts pass). -/
def snappedVal (O : DomainO) (kq : KQ) (nodes : List Vec)
    (rho0 : Option (Vec → ℝ)) (iterations : ℕ) (neighbors0 : Option ℤ)
    (dispersion_delta : ℝ) (pinned_nodes0 : Option (List Vec)) (snap_delta : ℝ)
    (include_vertices : Bool) : List (Vec × ℤ) :=
  O.snap
    (loopN (disperseIter O kq (rho0.getD (fun _ => 1))
        ((pinned_nodes0.getD []) ++ (if include_vertices then O.vertices else []))
        (min (neighbors0.getD (if O.dim = 3 then 4 else 3))
          ((nodes.length : ℤ)
            + (((pinned_nodes0.getD []) ++ (if include_vertices then O.vertices else [])).length : ℤ)
            - 1))
        dispersion_delta) iterations nodes
      ++ (if include_vertices then O.vertices else []))
    snap_delta

theorem prepSnapped_ok (O : DomainO) (kq : KQ) (nodes : List Vec)
    (rho0 : Option (Vec → ℝ)) (iterations : ℕ) (neighbors0 : Option ℤ)
    (dispersion_delta : ℝ) (pinned_nodes0 : Option (List Vec)) (snap_delta : ℝ)
    (include_vertices : Bool) (hn : ShapeOK O.dim nodes)
    (hf : ShapeOK O.dim
      ((pinned_nodes0.getD []) ++ (if include_vertices then O.vertices else []))) :
    prepSnapped O kq nodes rho0 iterations neighbors0 dispersion_delta
        pinned_nodes0 snap_delta include_vertices =
      .ok ((snappedVal O kq nodes rho0 iterations neighbors0 dispersion_delta
          pinned_nodes0 snap_delta include_vertices).map Prod.fst,
        (snappedVal O kq nodes rho0 iterations neighbors0 dispersion_delta
          pinned_nodes0 snap_delta include_vertices).map Prod.snd) := by
  unfold prepSnapped prepDispersed snappedVal
  rw [disperse_ok O kq nodes iterations rho0
    (some ((pinned_nodes0.getD []) ++ (if include_vertices then O.vertices else [])))
    neighbors0 dispersion_delta hn hf]
  rfl

theorem lookupG_mem_isSome :
    ∀ (G : List (String × List ℕ)) (k : String) (v : List ℕ),
      (k, v) ∈ G → (lookupG G k).isSome = true
  | [], _, _, h => absurd h (List.not_mem_nil _)
  | kv :: rest, k, v, h => by
      unfold lookupG
      by_cases he : kv.1 = k
      · rw [if_pos he]; rfl
      · rw [if_neg he]
        rcases List.mem_cons.mp h with h1 | h2
        · exact absurd (congrArg Prod.fst h1.symm) he
        · exact lookupG_mem_isSome rest k v h2

theorem lookupG_append_of_isSome :
    ∀ (G G' : List (String × List ℕ)) (k : String),
      (lookupG G k).isSome = true → lookupG (G ++ G') k = lookupG G k
  | [], _, _, h => by simp [lookupG] at h
  | kv :: rest, G', k, h => by
      show lookupG (kv :: (rest ++ G')) k = lookupG (kv :: rest) k
      unfold lookupG
      by_cases he : kv.1 = k
      · rw [if_pos he, if_pos he]
      · rw [if_neg he, if_neg he]
        refine lookupG_append_of_isSome rest G' k ?_
        unfold lookupG at h
        rwa [if_neg he] at h

theorem ghost_fold_ok (kq : KQ) (pool : List Vec) (gdelta : ℝ) (names : List String) :
    ∀ st, (∀ name ∈ names, (lookupG st.2.2 ("boundary:" ++ name)).isSome = true) →
      ∃ st', List.foldlM (ghostStep kq pool gdelta) st names = .ok st' := by
  induction names with
  | nil => exact fun st _ => ⟨st, rfl⟩
  | cons name rest ih =>
      intro st h
      obtain ⟨bidx, hb⟩ :=
        Option.isSome_iff_exists.mp (h name (List.mem_cons_self name rest))
      obtain ⟨st1, hstep, hG⟩ : ∃ st1, ghostStep kq pool gdelta st name = .ok st1 ∧
          st1.2.2 = st.2.2 ++ [("ghosts:" ++ name,
            (List.range bidx.length).map (fun k => k + st.1.length))] := by
        unfold ghostStep
        rw [hb]
        exact ⟨_, rfl, rfl⟩
      have hinv : ∀ nm ∈ rest, (lookupG st1.2.2 ("boundary:" ++ nm)).isSome = true := by
        intro nm hm
        rw [hG, lookupG_append_of_isSome _ _ _ (h nm (List.mem_cons_of_mem _ hm))]
        exact h nm (List.mem_cons_of_mem _ hm)
      obtain ⟨st', hrest⟩ := ih st1 hinv
      refine ⟨st', ?_⟩
      rw [List.foldlM_cons, hstep, except_bind_ok]
      exact hrest

/-- **C6**: with a caller-supplied boundary-group assignment, `prepare_nodes`
raises an error as soon as some referenced simplex index lies outside
`[0, len(smp))`; when every referenced index is valid it proceeds — however
badly the groups cover the simplices (duplicates and gaps are only warned
about) — and returns a result. -/
theorem C6_boundary_group_validation (O : DomainO) (kq : KQ)
    (nas : List Vec → List ℕ) (nodes : List Vec) (rho0 : Option (Vec → ℝ))
    (iterations : ℕ) (neighbors0 : Option ℤ) (dispersion_delta : ℝ)
    (pinned_nodes0 : Option (List Vec)) (snap_delta : ℝ)
    (B : List (String × List ℤ)) (ghosts : List String) (ghost_delta : ℝ)
    (include_vertices : Bool) (hn : ShapeOK O.dim nodes)
    (hf : ShapeOK O.dim
      ((pinned_nodes0.getD []) ++ (if include_vertices then O.vertices else []))) :
    ((∃ kv ∈ B, ∃ s ∈ kv.2, s < 0 ∨ (O.nsimp : ℤ) ≤ s) →
        prepare_nodes O kq nas nodes rho0 iterations neighbors0 dispersion_delta
          pinned_nodes0 snap_delta (some B) ghosts ghost_delta include_vertices =
          .error "simplex indices specified in the boundary groups do not exist")
    ∧ ((∀ kv ∈ B, ∀ s ∈ kv.2, 0 ≤ s ∧ s < (O.nsimp : ℤ)) →
        (∀ name ∈ ghosts, ∃ kv ∈ B, kv.1 = name) →
        ∃ res, prepare_nodes O kq nas nodes rho0 iterations neighbors0
          dispersion_delta pinned_nodes0 snap_delta (some B) ghosts ghost_delta
          include_vertices = .ok res) := by
  have hsnap := prepSnapped_ok O kq nodes rho0 iterations neighbors0
    dispersion_delta pinned_nodes0 snap_delta include_vertices hn hf
  constructor
  · rintro ⟨kv, hkv, s, hs, hso⟩
    have hany : B.any (fun kv => kv.2.any (fun s =>
        decide (s < 0 ∨ (O.nsimp : ℤ) ≤ s))) = true := by
      rw [List.any_eq_true]
      refine ⟨kv, hkv, ?_⟩
      rw [List.any_eq_true]
      exact ⟨s, hs, decide_eq_true hso⟩
    have hval : validateBoundaryGroups O.nsimp (some B) =
        .error "simplex indices specified in the boundary groups do not exist" := by
      unfold validateBoundaryGroups
      dsimp only
      rw [if_pos hany]
    unfold prepare_nodes
    rw [hsnap, except_bind_ok]
    dsimp only
    rw [hval, except_bind_error]
  · intro hvalid hgnames
    have hany : B.any (fun kv => kv.2.any (fun s =>
        decide (s < 0 ∨ (O.nsimp : ℤ) ≤ s))) = false := by
      rw [List.any_eq_false]
      intro kv hkv
      rw [Bool.not_eq_true, List.any_eq_false]
      intro s hs
      rw [Bool.not_eq_true, decide_eq_false_iff_not]
      rcases hvalid kv hkv s hs with ⟨h1, h2⟩
      omega
    have hval : validateBoundaryGroups O.nsimp (some B) = .ok () := by
      unfold validateBoundaryGroups
      dsimp only
      rw [if_neg (by rw [hany]; exact Bool.false_ne_true)]
    unfold prepare_nodes
    rw [hsnap, except_bind_ok]
    dsimp only
    rw [hval, except_bind_ok]
    set smpid := (snappedVal O kq nodes rho0 iterations neighbors0 dispersion_delta
      pinned_nodes0 snap_delta include_vertices).map Prod.snd with hsm
    set ns1 := (snappedVal O kq nodes rho0 iterations neighbors0 dispersion_delta
      pinned_nodes0 snap_delta include_vertices).map Prod.fst with hns
    set st2 := pinnedStage ns1 (normalsFromSmpid O ns1.length smpid) smpid
      pinned_nodes0 with hst2
    have hstart : ∀ name ∈ ghosts,
        (lookupG (boundaryStage smpid (effBoundaryGroups O.nsimp (some B)) st2.2.2)
          ("boundary:" ++ name)).isSome = true := by
      intro name hname
      obtain ⟨kv, hkv, hkvn⟩ := hgnames name hname
      have hmem : ("boundary:" ++ name,
          (kv.2.map (fun s => smpToNodes smpid s.toNat)).flatten) ∈
          boundaryStage smpid (effBoundaryGroups O.nsimp (some B)) st2.2.2 := by
        unfold boundaryStage
        refine List.mem_append_right _ ?_
        have hm2 : ("boundary:" ++ kv.1,
            (kv.2.map (fun s => smpToNodes smpid s.toNat)).flatten) ∈
            (effBoundaryGroups O.nsimp (some B)).map (fun kv =>
              ("boundary:" ++ kv.1, (kv.2.map (fun s => smpToNodes smpid s.toNat)).flatten)) :=
          List.mem_map_of_mem _ hkv
        rwa [hkvn] at hm2
      exact lookupG_mem_isSome _ _ _ hmem
    obtain ⟨st', hfold⟩ := ghost_fold_ok kq st2.1 ghost_delta ghosts
      (st2.1, st2.2.1, boundaryStage smpid (effBoundaryGroups O.nsimp (some B)) st2.2.2)
      hstart
    rw [hfold, except_bind_ok]
    exact ⟨_, rfl⟩

/-- A concrete one-simplex domain oracle for witnesses: no boundary
crossings, outward normal `[1]`, and a snap that assigns the node at the
origin to simplex 0 and reports every other node as interior. -/
def WO : DomainO :=
  DomainO.mk 1 [] 1 (fun _ => [1]) (fun _ _ => 0) (fun _ _ => ([0], 0))
    (fun xs _ => xs.map (fun v => (v, if v.headD 0 = 0 then (0 : ℤ) else -1)))

/-- A concrete KD-tree oracle for witnesses: the query point at distance 0,
then one other point at distance 1. -/
def WKQ : KQ := fun _ _ _ => [((0 : ℝ), (0 : ℕ)), ((1 : ℝ), (1 : ℕ))]

/-- A concrete reordering oracle for witnesses: the identity permutation. -/
def Wnas : List Vec → List ℕ := fun xs => List.range xs.length

/-- Witness for `C6_boundary_group_validation`, second branch: a valid
user-supplied boundary-group assignment is accepted and a result returned. -/
theorem C6_boundary_group_validation_witness :
    (ShapeOK WO.dim [[(0 : ℝ)], [1]]
      ∧ ShapeOK WO.dim (((none : Option (List Vec)).getD [])
          ++ (if false then WO.vertices else []))
      ∧ (∀ kv ∈ [("left", [(0 : ℤ)])], ∀ s ∈ kv.2, 0 ≤ s ∧ s < (WO.nsimp : ℤ))
      ∧ (∀ name ∈ ([] : List String), ∃ kv ∈ [("left", [(0 : ℤ)])], kv.1 = name))
    ∧ ∃ res, prepare_nodes WO WKQ Wnas [[0], [1]] none 0 (some 1) 1 none (1 / 2)
        (some [("left", [0])]) [] (1 / 2) false = .ok res := by
  have hn : ShapeOK WO.dim [[(0 : ℝ)], [1]] := by
    intro v hv
    rcases List.mem_cons.mp hv with rfl | hv2
    · rfl
    · rcases List.mem_cons.mp hv2 with rfl | hv3
      · rfl
      · exact absurd hv3 (List.not_mem_nil v)
  have hf : ShapeOK WO.dim (((none : Option (List Vec)).getD [])
      ++ (if false then WO.vertices else [])) := by
    intro v hv
    exact absurd hv (List.not_mem_nil v)
  have hvalid : ∀ kv ∈ [("left", [(0 : ℤ)])], ∀ s ∈ kv.2, 0 ≤ s ∧ s < (WO.nsimp : ℤ) := by
    intro kv hkv s hs
    rcases List.mem_cons.mp hkv with rfl | hkv2
    · rcases List.mem_cons.mp hs with rfl | hs2
      · exact ⟨le_refl 0, by norm_num [WO]⟩
      · exact absurd hs2 (List.not_mem_nil s)
    · exact absurd hkv2 (List.not_mem_nil kv)
  have hgn : ∀ name ∈ ([] : List String), ∃ kv ∈ [("left", [(0 : ℤ)])], kv.1 = name :=
    fun name hname => absurd hname (List.not_mem_nil name)
  exact ⟨⟨hn, hf, hvalid, hgn⟩,
    (C6_boundary_group_validation WO WKQ Wnas [[0], [1]] none 0 (some 1) 1 none
      (1 / 2) [("left", [0])] [] (1 / 2) false hn hf).2 hvalid hgn⟩

theorem getD_append_add : ∀ (l l' : List α) (k : ℕ) (d : α),
    (l ++ l').getD (l.length + k) d = l'.getD k d
  | [], l', k, d => by simp
  | x :: xs, l', k, d => by simpa [Nat.succ_add] using getD_append_add xs l' k d

theorem range_getD (n i : ℕ) (hi : i < n) : (List.range n).getD i 0 = i := by
  rw [List.getD_eq_get _ _ (by simpa using hi)]
  exact List.get_range _ _

theorem npIndex_length (d : α) (p : List ℕ) (xs : List α) :
    (npIndex d p xs).length = p.length := by
  simp [npIndex]

theorem normalsFromSmpid_length (O : DomainO) (n : ℕ) (smpid : List ℤ) :
    (normalsFromSmpid O n smpid).length = n := by
  simp [normalsFromSmpid]

theorem normalsFromSmpid_getD (O : DomainO) (n : ℕ) (smpid : List ℤ) (i : ℕ)
    (hi : i < n) :
    (normalsFromSmpid O n smpid).getD i none =
      (if 0 ≤ smpid.getD i (-1) then some (O.normals (smpid.getD i (-1)).toNat)
       else none) := by
  unfold normalsFromSmpid
  rw [getD_map_of_lt _ 0 none _ i (by simpa using hi), range_getD n i hi]

theorem npIndex_roundtrip {p : List ℕ} {n : ℕ} (hp : p.Perm (List.range n))
    (d : α) (xs : List α) (i : ℕ) (hi : i < n) :
    (npIndex d p xs).getD ((np_argsort p).getD i 0) d = xs.getD i d := by
  have hplen : p.length = n := perm_range_length hp
  have hj : (np_argsort p).getD i 0 = p.indexOf i := np_argsort_getD p i (by omega)
  rw [hj]
  unfold npIndex
  rw [getD_map_of_lt _ 0 d p _ (perm_range_indexOf_lt hp i hi),
    perm_range_getD_indexOf hp i hi]

theorem np_argsort_getD_lt {p : List ℕ} {n : ℕ} (hp : p.Perm (List.range n))
    (i : ℕ) (hi : i < n) : (np_argsort p).getD i 0 < n := by
  have hplen : p.length = n := perm_range_length hp
  rw [np_argsort_getD p i (by omega)]
  have := perm_range_indexOf_lt hp i hi
  omega

theorem except_bind_eq_ok {a : Except String α} {f : α → Except String β} {v : β}
    (h : (a >>= f) = .ok v) : ∃ w, a = .ok w ∧ f w = .ok v := by
  cases a with
  | ok w => exact ⟨w, rfl, h⟩
  | error e => exact absurd h (by simp [except_bind_error])

/-- Decomposition of the ghost loop: a successful fold appends node rows,
the same number of NaN normal rows, and group entries, leaving the initial
prefixes untouched. -/
theorem ghost_fold_decomp (kq : KQ) (pool : List Vec) (gdelta : ℝ) :
    ∀ (names : List String) (st st' :
        List Vec × List (Option Vec) × List (String × List ℕ)),
      List.foldlM (ghostStep kq pool gdelta) st names = .ok st' →
      ∃ ext extM gg, st'.1 = st.1 ++ ext ∧ st'.2.1 = st.2.1 ++ extM
        ∧ st'.2.2 = st.2.2 ++ gg
        ∧ extM.length = ext.length ∧ (∀ r ∈ extM, r = none) := by
  intro names
  induction names with
  | nil =>
      intro st st' h
      have h2 : st = st' := by
        have : (Except.ok st : Except String _) = .ok st' := h
        exact Except.ok.inj this
      subst h2
      exact ⟨[], [], [], by simp, by simp, by simp, rfl, fun r hr => absurd hr (List.not_mem_nil r)⟩
  | cons name rest ih =>
      intro st st' h
      rw [List.foldlM_cons] at h
      obtain ⟨stm, hstep, hrest⟩ := except_bind_eq_ok h
      unfold ghostStep at hstep
      cases hlk : lookupG st.2.2 ("boundary:" ++ name) with
      | none =>
          rw [hlk] at hstep
          exact absurd hstep (by simp)
      | some bidx =>
          rw [hlk] at hstep
          have hstm := Except.ok.inj hstep
          obtain ⟨ext2, extM2, gg2, he1, he2, he3, hlen2, hnone2⟩ := ih stm st' hrest
          rw [← hstm] at he1 he2 he3
          refine ⟨(bidx.map (fun b =>
              vadd (st.1.getD b [])
                (smul (gdelta * ((kq pool (st.1.getD b []) 2).getD 1 ((0 : ℝ), (0 : ℕ))).1)
                  ((st.2.1.getD b none).getD [])))) ++ ext2,
            ((bidx.map (fun b =>
              vadd (st.1.getD b [])
                (smul (gdelta * ((kq pool (st.1.getD b []) 2).getD 1 ((0 : ℝ), (0 : ℕ))).1)
                  ((st.2.1.getD b none).getD [])))).map (fun _ => (none : Option Vec)))
              ++ extM2,
            [("ghosts:" ++ name, (List.range bidx.length).map (fun k => k + st.1.length))]
              ++ gg2, ?_, ?_, ?_, ?_, ?_⟩
          · rw [he1, ← List.append_assoc]
          · rw [he2, ← List.append_assoc]
          · rw [he3, ← List.append_assoc]
          · simp [hlen2]
          · intro r hr
            rcases List.mem_append.mp hr with h1 | h2
            · exact (List.mem_map.mp h1).choose_spec.2.symm
            · exact hnone2 r h2

theorem pinnedStage_fst (ns : List Vec) (normals : List (Option Vec))
    (smpid : List ℤ) (p0 : Option (List Vec)) :
    (pinnedStage ns normals smpid p0).1 = ns ++ (p0.getD []) := by
  cases p0 <;> simp [pinnedStage]

theorem pinnedStage_snd1 (ns : List Vec) (normals : List (Option Vec))
    (smpid : List ℤ) (p0 : Option (List Vec)) :
    (pinnedStage ns normals smpid p0).2.1 =
      normals ++ (p0.getD []).map (fun _ => (none : Option Vec)) := by
  cases p0 <;> simp [pinnedStage]

/-- Inversion of a successful `prepare_nodes` run into its ghost-fold state
and the reorder equations. -/
theorem prepare_nodes_inversion (O : DomainO) (kq : KQ) (nas : List Vec → List ℕ)
    (nodes : List Vec) (rho0 : Option (Vec → ℝ)) (iterations : ℕ)
    (neighbors0 : Option ℤ) (dispersion_delta : ℝ)
    (pinned_nodes0 : Option (List Vec)) (snap_delta : ℝ)
    (boundary_groups0 : Option (List (String × List ℤ))) (ghosts : List String)
    (ghost_delta : ℝ) (include_vertices : Bool) (ns1 : List Vec) (smpid : List ℤ)
    (N : List Vec) (G : List (String × List ℕ)) (M : List (Option Vec))
    (hok : prepSnapped O kq nodes rho0 iterations neighbors0 dispersion_delta
      pinned_nodes0 snap_delta include_vertices = .ok (ns1, smpid))
    (hres : prepare_nodes O kq nas nodes rho0 iterations neighbors0
      dispersion_delta pinned_nodes0 snap_delta boundary_groups0 ghosts
      ghost_delta include_vertices = .ok (N, G, M)) :
    ∃ st3 : List Vec × List (Option Vec) × List (String × List ℕ),
      List.foldlM (ghostStep kq
          (pinnedStage ns1 (normalsFromSmpid O ns1.length smpid) smpid pinned_nodes0).1
          ghost_delta)
        ((pinnedStage ns1 (normalsFromSmpid O ns1.length smpid) smpid pinned_nodes0).1,
          (pinnedStage ns1 (normalsFromSmpid O ns1.length smpid) smpid pinned_nodes0).2.1,
          boundaryStage smpid (effBoundaryGroups O.nsimp boundary_groups0)
            (pinnedStage ns1 (normalsFromSmpid O ns1.length smpid) smpid
              pinned_nodes0).2.2) ghosts = .ok st3
      ∧ N = npIndex [] (nas st3.1) st3.1
      ∧ M = npIndex none (nas st3.1) st3.2.1
      ∧ G = st3.2.2.map (fun kv => (kv.1, npIndex 0 kv.2 (np_argsort (nas st3.1)))) := by
  unfold prepare_nodes at hres
  rw [hok, except_bind_ok] at hres
  dsimp only at hres
  obtain ⟨u, _, hres2⟩ := except_bind_eq_ok hres
  obtain ⟨st3, hfold, hpure⟩ := except_bind_eq_ok hres2
  have h3 := Except.ok.inj hpure
  have hN := congrArg Prod.fst h3
  have hGM := congrArg Prod.snd h3
  have hG := congrArg Prod.fst hGM
  have hM := congrArg Prod.snd hGM
  exact ⟨st3, hfold, hN.symm, hM.symm, hG.symm⟩

/-- **C7**: the returned normals array has exactly one row per node, in the
same order as the node array; every node the snap assigned to a simplex has
that simplex's outward normal in its row, every interior node (snap index
-1) and every pinned node has the NaN sentinel row (modelled `none`). -/
theorem C7_normals_alignment (O : DomainO) (kq : KQ) (nas : List Vec → List ℕ)
    (nodes : List Vec) (rho0 : Option (Vec → ℝ)) (iterations : ℕ)
    (neighbors0 : Option ℤ) (dispersion_delta : ℝ)
    (pinned_nodes0 : Option (List Vec)) (snap_delta : ℝ)
    (boundary_groups0 : Option (List (String × List ℤ))) (ghosts : List String)
    (ghost_delta : ℝ) (include_vertices : Bool) (ns1 : List Vec) (smpid : List ℤ)
    (N : List Vec) (G : List (String × List ℕ)) (M : List (Option Vec))
    (hperm : ∀ xs, (nas xs).Perm (List.range xs.length))
    (hok : prepSnapped O kq nodes rho0 iterations neighbors0 dispersion_delta
      pinned_nodes0 snap_delta include_vertices = .ok (ns1, smpid))
    (hres : prepare_nodes O kq nas nodes rho0 iterations neighbors0
      dispersion_delta pinned_nodes0 snap_delta boundary_groups0 ghosts
      ghost_delta include_vertices = .ok (N, G, M)) :
    M.length = N.length
    ∧ (∀ i, i < ns1.length → ∃ j, j < N.length ∧ N.getD j [] = ns1.getD i []
        ∧ M.getD j none =
          (if 0 ≤ smpid.getD i (-1) then some (O.normals (smpid.getD i (-1)).toNat)
           else none))
    ∧ (∀ k, k < (pinned_nodes0.getD []).length → ∃ j, j < N.length
        ∧ N.getD j [] = (pinned_nodes0.getD []).getD k []
        ∧ M.getD j none = none) := by
  obtain ⟨st3, hfold, hN, hM, hG⟩ := prepare_nodes_inversion O kq nas nodes rho0
    iterations neighbors0 dispersion_delta pinned_nodes0 snap_delta
    boundary_groups0 ghosts ghost_delta include_vertices ns1 smpid N G M hok hres
  obtain ⟨ext, extM, gg, he1, he2, he3, helen, hnone⟩ :=
    ghost_fold_decomp kq _ ghost_delta ghosts _ st3 hfold
  dsimp only at he1 he2 he3
  rw [pinnedStage_fst] at he1
  rw [pinnedStage_snd1] at he2
  have hnormlen : (normalsFromSmpid O ns1.length smpid).length = ns1.length :=
    normalsFromSmpid_length O ns1.length smpid
  have hst31len : st3.1.length =
      ns1.length + (pinned_nodes0.getD []).length + ext.length := by
    rw [he1]
    simp [Nat.add_assoc]
  have hst32len : st3.2.1.length =
      ns1.length + (pinned_nodes0.getD []).length + extM.length := by
    rw [he2]
    simp [hnormlen, Nat.add_assoc]
  have hNlen : N.length = st3.1.length := by
    rw [hN, npIndex_length, perm_range_length (hperm st3.1)]
  have hMlen : M.length = st3.1.length := by
    rw [hM, npIndex_length, perm_range_length (hperm st3.1)]
  refine ⟨by rw [hNlen, hMlen], ?_, ?_⟩
  · intro i hi
    have hi3 : i < st3.1.length := by omega
    refine ⟨(np_argsort (nas st3.1)).getD i 0, ?_, ?_, ?_⟩
    · rw [hNlen]
      exact np_argsort_getD_lt (hperm st3.1) i hi3
    · rw [hN, npIndex_roundtrip (hperm st3.1) [] st3.1 i hi3, he1]
      rw [getD_append_lt _ _ _ _ (by simp; omega)]
      rw [getD_append_lt _ _ _ _ hi]
    · rw [hM, npIndex_roundtrip (hperm st3.1) none st3.2.1 i hi3, he2]
      rw [getD_append_lt _ _ _ _ (by simp [hnormlen]; omega)]
      rw [getD_append_lt _ _ _ _ (by omega)]
      exact normalsFromSmpid_getD O ns1.length smpid i hi
  · intro k hk
    have hi3 : ns1.length + k < st3.1.length := by omega
    refine ⟨(np_argsort (nas st3.1)).getD (ns1.length + k) 0, ?_, ?_, ?_⟩
    · rw [hNlen]
      exact np_argsort_getD_lt (hperm st3.1) _ hi3
    · rw [hN, npIndex_roundtrip (hperm st3.1) [] st3.1 _ hi3, he1]
      rw [getD_append_lt _ _ _ _ (by simp; omega)]
      exact getD_append_add ns1 _ k []
    · rw [hM, npIndex_roundtrip (hperm st3.1) none st3.2.1 _ hi3, he2]
      rw [getD_append_lt _ _ _ _ (by simp [hnormlen]; omega)]
      have hrw : ns1.length + k = (normalsFromSmpid O ns1.length smpid).length + k := by
        rw [hnormlen]
      rw [hrw, getD_append_add]
      rw [getD_map_of_lt _ [] none _ k hk]

theorem WO_shape_nodes : ShapeOK WO.dim [[(0 : ℝ)], [1]] := by
  intro v hv
  rcases List.mem_cons.mp hv with rfl | hv2
  · rfl
  · rcases List.mem_cons.mp hv2 with rfl | hv3
    · rfl
    · exact absurd hv3 (List.not_mem_nil v)

theorem WO_shape_pinned : ShapeOK WO.dim
    (((some [[(5 : ℝ)]] : Option (List Vec)).getD [])
      ++ (if false then WO.vertices else [])) := by
  intro v hv
  rcases List.mem_cons.mp hv with rfl | hv2
  · rfl
  · exact absurd hv2 (List.not_mem_nil v)

theorem WO_snap_eval : prepSnapped WO WKQ [[0], [1]] none 0 (some 1) 1
    (some [[5]]) (1 / 2) false = .ok ([[0], [1]], [0, -1]) := by
  rw [prepSnapped_ok WO WKQ [[0], [1]] none 0 (some 1) 1 (some [[5]]) (1 / 2)
    false WO_shape_nodes WO_shape_pinned]
  norm_num [snappedVal, WO, loopN]

theorem Wnas_perm : ∀ xs : List Vec, (Wnas xs).Perm (List.range xs.length) :=
  fun _ => List.Perm.refl _

theorem W_prepare_eval : prepare_nodes WO WKQ Wnas [[0], [1]] none 0 (some 1) 1
    (some [[5]]) (1 / 2) none [] (1 / 2) false =
    .ok ([[0], [1], [5]],
      [("interior", [1]), ("pinned", [2]), ("boundary:all", [0])],
      [some [1], none, none]) := by
  unfold prepare_nodes
  rw [WO_snap_eval, except_bind_ok]
  rfl

/-- Witness for `C7_normals_alignment` at the concrete scenario: two sample
nodes (one snapped to simplex 0, one interior) and one pinned node. -/
theorem C7_normals_alignment_witness :
    ((∀ xs, (Wnas xs).Perm (List.range xs.length))
      ∧ prepSnapped WO WKQ [[0], [1]] none 0 (some 1) 1 (some [[5]]) (1 / 2)
          false = .ok ([[0], [1]], [0, -1])
      ∧ prepare_nodes WO WKQ Wnas [[0], [1]] none 0 (some 1) 1 (some [[5]])
          (1 / 2) none [] (1 / 2) false =
        .ok ([[0], [1], [5]],
          [("interior", [1]), ("pinned", [2]), ("boundary:all", [0])],
          [some [1], none, none]))
    ∧ ([some [1], none, none] : List (Option Vec)).length =
        ([[(0 : ℝ)], [1], [5]] : List Vec).length :=
  ⟨⟨Wnas_perm, WO_snap_eval, W_prepare_eval⟩,
    (C7_normals_alignment WO WKQ Wnas [[0], [1]] none 0 (some 1) 1 (some [[5]])
      (1 / 2) none [] (1 / 2) false [[0], [1]] [0, -1] [[0], [1], [5]]
      [("interior", [1]), ("pinned", [2]), ("boundary:all", [0])]
      [some [1], none, none] Wnas_perm WO_snap_eval W_prepare_eval).1⟩

theorem foldlM_append_except (f : σ → α → Except String σ) :
    ∀ (l1 l2 : List α) (init : σ),
      List.foldlM f init (l1 ++ l2) =
        (List.foldlM f init l1 >>= fun s => List.foldlM f s l2)
  | [], l2, init => by
      rw [List.nil_append]
      show _ = (Except.ok init >>= fun s => List.foldlM f s l2)
      rw [except_bind_ok]
  | a :: l1, l2, init => by
      rw [List.cons_append, List.foldlM_cons, List.foldlM_cons]
      cases hfa : f init a with
      | error e => rfl
      | ok s => exact foldlM_append_except f l1 l2 s

theorem getD_mem : ∀ (l : List α) (k : ℕ) (d : α), k < l.length → l.getD k d ∈ l
  | x :: xs, 0, _, _ => List.mem_cons_self x xs
  | x :: xs, k + 1, d, h => by
      simpa using Or.inr (getD_mem xs k d (by simpa using h))
  | [], _, _, h => absurd h (by simp)

/-- **C8**: for each boundary group `name` flagged in
`boundary_groups_with_ghosts`, `prepare_nodes` synthesizes exactly one ghost
node per boundary node of that group: the ghost of the `k`-th boundary node
`b` of the group sits at `nodes[b] + ghost_delta * dist * normals[b]`, where
`dist` is the reported nearest-neighbor distance of `nodes[b]` in the
pre-ghost node pool and `normals[b]` the node's simplex outward normal; the
ghost's normal row is the NaN sentinel (`none`) and its index is recorded at
position `k` of the `ghosts:name` group. -/
theorem C8_ghost_synthesis (O : DomainO) (kq : KQ) (nas : List Vec → List ℕ)
    (nodes : List Vec) (rho0 : Option (Vec → ℝ)) (iterations : ℕ)
    (neighbors0 : Option ℤ) (dispersion_delta : ℝ)
    (pinned_nodes0 : Option (List Vec)) (snap_delta : ℝ)
    (boundary_groups0 : Option (List (String × List ℤ))) (ghosts : List String)
    (ghost_delta : ℝ) (include_vertices : Bool) (ns1 : List Vec) (smpid : List ℤ)
    (N : List Vec) (G : List (String × List ℕ)) (M : List (Option Vec))
    (name : String) (bidx : List ℕ)
    (hperm : ∀ xs, (nas xs).Perm (List.range xs.length))
    (hok : prepSnapped O kq nodes rho0 iterations neighbors0 dispersion_delta
      pinned_nodes0 snap_delta include_vertices = .ok (ns1, smpid))
    (hname : name ∈ ghosts)
    (hb : lookupG (boundaryStage smpid (effBoundaryGroups O.nsimp boundary_groups0)
        (pinnedStage ns1 (normalsFromSmpid O ns1.length smpid) smpid
          pinned_nodes0).2.2) ("boundary:" ++ name) = some bidx)
    (hbb : ∀ b ∈ bidx, b < ns1.length)
    (hsnapb : ∀ b ∈ bidx, 0 ≤ smpid.getD b (-1))
    (hres : prepare_nodes O kq nas nodes rho0 iterations neighbors0
      dispersion_delta pinned_nodes0 snap_delta boundary_groups0 ghosts
      ghost_delta include_vertices = .ok (N, G, M)) :
    ∃ gl, ("ghosts:" ++ name, gl) ∈ G ∧ gl.length = bidx.length
      ∧ ∀ k, k < bidx.length →
          gl.getD k 0 < N.length
          ∧ N.getD (gl.getD k 0) [] =
              vadd (ns1.getD (bidx.getD k 0) [])
                (smul (ghost_delta *
                    ((kq (pinnedStage ns1 (normalsFromSmpid O ns1.length smpid)
                        smpid pinned_nodes0).1
                      (ns1.getD (bidx.getD k 0) []) 2).getD 1 ((0 : ℝ), (0 : ℕ))).1)
                  (O.normals (smpid.getD (bidx.getD k 0) (-1)).toNat))
          ∧ M.getD (gl.getD k 0) none = none := by
  obtain ⟨st3, hfold, hN, hM, hG⟩ := prepare_nodes_inversion O kq nas nodes rho0
    iterations neighbors0 dispersion_delta pinned_nodes0 snap_delta
    boundary_groups0 ghosts ghost_delta include_vertices ns1 smpid N G M hok hres
  obtain ⟨l1, l2, hsplit⟩ := List.append_of_mem hname
  rw [hsplit, foldlM_append_except] at hfold
  obtain ⟨stp, hfold1, hfold2⟩ := except_bind_eq_ok hfold
  rw [List.foldlM_cons] at hfold2
  obtain ⟨stm, hstep, hfold3⟩ := except_bind_eq_ok hfold2
  obtain ⟨ext1, extM1, gg1, hp1, hp2, hp3, hplen, hpnone⟩ :=
    ghost_fold_decomp kq _ ghost_delta l1 _ stp hfold1
  dsimp only at hp1 hp2 hp3
  rw [pinnedStage_fst] at hp1
  rw [pinnedStage_snd1] at hp2
  have hnormlen : (normalsFromSmpid O ns1.length smpid).length = ns1.length :=
    normalsFromSmpid_length O ns1.length smpid
  have hlk : lookupG stp.2.2 ("boundary:" ++ name) = some bidx := by
    rw [hp3, lookupG_append_of_isSome _ _ _ (by rw [hb]; rfl), hb]
  unfold ghostStep at hstep
  rw [hlk] at hstep
  dsimp only at hstep
  have hstm := Except.ok.inj hstep
  -- abbreviations for the appended ghost block
  set pool := (pinnedStage ns1 (normalsFromSmpid O ns1.length smpid) smpid
    pinned_nodes0).1 with hpool
  set gpos := bidx.map (fun b =>
    vadd (stp.1.getD b [])
      (smul (ghost_delta * ((kq pool (stp.1.getD b []) 2).getD 1 ((0 : ℝ), (0 : ℕ))).1)
        ((stp.2.1.getD b none).getD []))) with hgpos
  set gidx := (List.range bidx.length).map (fun k => k + stp.1.length) with hgidx
  have hstm2 : stm = (stp.1 ++ gpos, stp.2.1 ++ gpos.map (fun _ => (none : Option Vec)),
      stp.2.2 ++ [("ghosts:" ++ name, gidx)]) := hstm.symm
  obtain ⟨ext2, extM2, gg2, hq1, hq2, hq3, hqlen, hqnone⟩ :=
    ghost_fold_decomp kq _ ghost_delta l2 stm st3 hfold3
  rw [hstm2] at hq1 hq2 hq3
  dsimp only at hq1 hq2 hq3
  -- pre-node simplifications for b in bidx
  have hstp1b : ∀ b ∈ bidx, stp.1.getD b [] = ns1.getD b [] := by
    intro b hbi
    rw [hp1, getD_append_lt _ _ _ _ (by simp; have := hbb b hbi; omega),
      getD_append_lt _ _ _ _ (hbb b hbi)]
  have hstp2b : ∀ b ∈ bidx, (stp.2.1.getD b none).getD [] =
      O.normals (smpid.getD b (-1)).toNat := by
    intro b hbi
    rw [hp2, getD_append_lt _ _ _ _ (by simp [hnormlen]; have := hbb b hbi; omega),
      getD_append_lt _ _ _ _ (by rw [hnormlen]; exact hbb b hbi),
      normalsFromSmpid_getD O ns1.length smpid b (hbb b hbi),
      if_pos (hsnapb b hbi)]
    rfl
  have hstplen : stp.2.1.length = stp.1.length := by
    rw [hp1, hp2]
    simp [hnormlen, hplen]
  -- lengths
  have hgposlen : gpos.length = bidx.length := by simp [hgpos]
  have hst31 : st3.1 = (stp.1 ++ gpos) ++ ext2 := hq1
  have hst31len : st3.1.length = stp.1.length + bidx.length + ext2.length := by
    rw [hst31]
    simp [hgposlen, Nat.add_assoc]
  have hNlen : N.length = st3.1.length := by
    rw [hN, npIndex_length, perm_range_length (hperm st3.1)]
  -- the ghost group entry survives to the end and is remapped
  have hentry : ("ghosts:" ++ name, gidx) ∈ st3.2.2 := by
    rw [hq3]
    exact List.mem_append_left _ (List.mem_append_right _ (List.mem_cons_self _ _))
  refine ⟨npIndex 0 gidx (np_argsort (nas st3.1)), ?_, ?_, ?_⟩
  · rw [hG]
    exact List.mem_map_of_mem (fun kv => (kv.1, npIndex 0 kv.2 (np_argsort (nas st3.1)))) hentry
  · simp [npIndex, hgidx]
  · intro k hk
    have hgidxlen : k < gidx.length := by simp [hgidx]; omega
    have hglk : (npIndex 0 gidx (np_argsort (nas st3.1))).getD k 0 =
        (np_argsort (nas st3.1)).getD (k + stp.1.length) 0 := by
      unfold npIndex
      rw [getD_map_of_lt _ 0 0 gidx k hgidxlen, hgidx,
        getD_map_of_lt _ 0 0 _ k (by simp; omega), range_getD _ k hk]
    have hi3 : k + stp.1.length < st3.1.length := by omega
    have hb' : bidx.getD k 0 ∈ bidx := getD_mem bidx k 0 hk
    refine ⟨?_, ?_, ?_⟩
    · rw [hglk, hNlen]
      exact np_argsort_getD_lt (hperm st3.1) _ hi3
    · rw [hglk, hN, npIndex_roundtrip (hperm st3.1) [] st3.1 _ hi3, hst31,
        getD_append_lt _ _ _ _ (by simp [hgposlen]; omega),
        Nat.add_comm k stp.1.length, getD_append_add, hgpos,
        getD_map_of_lt _ 0 [] bidx k hk]
      rw [hstp1b _ hb', hstp2b _ hb']
    · rw [hglk, hM, npIndex_roundtrip (hperm st3.1) none st3.2.1 _ hi3, hq2,
        getD_append_lt _ _ _ _ (by simp [hstplen, hgposlen]; omega),
        Nat.add_comm k stp.1.length]
      rw [show stp.1.length = stp.2.1.length from hstplen.symm, getD_append_add]
      rw [getD_map_of_lt _ [] none gpos k (by omega)]

/-- Witness for `C8_ghost_synthesis`: the boundary group `all` of the
concrete scenario is flagged for ghosts; its single boundary node receives
exactly one ghost, recorded in the `ghosts:all` group. -/
theorem C8_ghost_synthesis_witness :
    ((∀ xs, (Wnas xs).Perm (List.range xs.length))
      ∧ "all" ∈ ["all"]
      ∧ (∀ b ∈ ([0] : List ℕ), b < ([[(0 : ℝ)], [1]] : List Vec).length)
      ∧ (∀ b ∈ ([0] : List ℕ), 0 ≤ ([0, -1] : List ℤ).getD b (-1)))
    ∧ ∃ N G M, prepare_nodes WO WKQ Wnas [[0], [1]] none 0 (some 1) 1
        (some [[5]]) (1 / 2) none ["all"] (1 / 2) false = .ok (N, G, M)
      ∧ ∃ gl, ("ghosts:" ++ "all", gl) ∈ G ∧ gl.length = ([0] : List ℕ).length := by
  have hb : lookupG (boundaryStage [0, -1] (effBoundaryGroups WO.nsimp none)
      (pinnedStage [[0], [1]]
        (normalsFromSmpid WO ([[(0 : ℝ)], [1]] : List Vec).length [0, -1])
        [0, -1] (some [[5]])).2.2) ("boundary:" ++ "all") = some [0] := by
    rfl
  have hbb : ∀ b ∈ ([0] : List ℕ), b < ([[(0 : ℝ)], [1]] : List Vec).length := by
    intro b hbm
    rcases List.mem_cons.mp hbm with rfl | h2
    · decide
    · exact absurd h2 (List.not_mem_nil b)
  have hsnapb : ∀ b ∈ ([0] : List ℕ), 0 ≤ ([0, -1] : List ℤ).getD b (-1) := by
    intro b hbm
    rcases List.mem_cons.mp hbm with rfl | h2
    · decide
    · exact absurd h2 (List.not_mem_nil b)
  have hname : "all" ∈ ["all"] := List.mem_cons_self _ _
  have hexists : ∃ res, prepare_nodes WO WKQ Wnas [[0], [1]] none 0 (some 1) 1
      (some [[5]]) (1 / 2) none ["all"] (1 / 2) false = .ok res := by
    unfold prepare_nodes
    rw [WO_snap_eval, except_bind_ok]
    dsimp only
    rw [show validateBoundaryGroups WO.nsimp none = .ok () from rfl, except_bind_ok]
    obtain ⟨st', hfold⟩ := ghost_fold_ok WKQ
      (pinnedStage [[0], [1]]
        (normalsFromSmpid WO ([[(0 : ℝ)], [1]] : List Vec).length [0, -1])
        [0, -1] (some [[5]])).1 (1 / 2) ["all"]
      ((pinnedStage [[0], [1]]
          (normalsFromSmpid WO ([[(0 : ℝ)], [1]] : List Vec).length [0, -1])
          [0, -1] (some [[5]])).1,
        (pinnedStage [[0], [1]]
          (normalsFromSmpid WO ([[(0 : ℝ)], [1]] : List Vec).length [0, -1])
          [0, -1] (some [[5]])).2.1,
        boundaryStage [0, -1] (effBoundaryGroups WO.nsimp none)
          (pinnedStage [[0], [1]]
            (normalsFromSmpid WO ([[(0 : ℝ)], [1]] : List Vec).length [0, -1])
            [0, -1] (some [[5]])).2.2)
      (by
        intro nm hnm
        rcases List.mem_cons.mp hnm with rfl | h2
        · rw [hb]; rfl
        · exact absurd h2 (List.not_mem_nil nm))
    rw [hfold, except_bind_ok]
    exact ⟨_, rfl⟩
  obtain ⟨⟨N, GM⟩, hres⟩ := hexists
  obtain ⟨G, M⟩ := GM
  obtain ⟨gl, hmem, hlen, _⟩ := C8_ghost_synthesis WO WKQ Wnas [[0], [1]] none 0
    (some 1) 1 (some [[5]]) (1 / 2) none ["all"] (1 / 2) false [[0], [1]]
    [0, -1] N G M "all" [0] Wnas_perm WO_snap_eval hname hb hbb hsnapb hres
  exact ⟨⟨Wnas_perm, hname, hbb, hsnapb⟩, N, G, M, hres, gl, hmem, hlen⟩

/-- Total number of occurrences of node index `j` across all groups of the
group mapping. -/
def groupCount (G : List (String × List ℕ)) (j : ℕ) : ℕ :=
  (G.map (fun kv => kv.2.count j)).sum

/-- Does the group name denote the `interior` group or a `boundary:*`
group? -/
def isIB (k : String) : Bool :=
  decide (k = "interior") || decide (k.data.take 9 = "boundary:".data)

/-- Number of occurrences of node index `j` across the `interior` and
`boundary:*` groups only. -/
def ibCount (G : List (String × List ℕ)) (j : ℕ) : ℕ :=
  ((G.filter (fun kv => isIB kv.1)).map (fun kv => kv.2.count j)).sum

theorem isIB_interior : isIB "interior" = true := by decide

theorem isIB_pinned : isIB "pinned" = false := by decide

theorem isIB_boundary (s : String) : isIB ("boundary:" ++ s) = true := by
  unfold isIB
  have h2 : (("boundary:" ++ s).data.take 9 = "boundary:".data) := by
    rw [String.data_append,
      show (9 : ℕ) = ("boundary:".data).length from rfl, List.take_left]
  rw [decide_eq_true h2]
  exact Bool.or_true _

theorem isIB_ghosts (s : String) : isIB ("ghosts:" ++ s) = false := by
  unfold isIB
  have h1 : ¬ ("ghosts:" ++ s = "interior") := by
    intro h
    have hd := congrArg String.data h
    rw [String.data_append, show "ghosts:".data = 'g' :: "hosts:".data from rfl,
      List.cons_append, show "interior".data = 'i' :: "nterior".data from rfl] at hd
    injection hd with hh _
    exact absurd hh (by decide)
  have h2 : ¬ (("ghosts:" ++ s).data.take 9 = "boundary:".data) := by
    intro h
    rw [String.data_append, show "ghosts:".data = 'g' :: "hosts:".data from rfl,
      List.cons_append, show (9 : ℕ) = 8 + 1 from rfl, List.take_succ_cons,
      show "boundary:".data = 'b' :: "oundary:".data from rfl] at h
    injection h with hh _
    exact absurd hh (by decide)
  rw [decide_eq_false h1, decide_eq_false h2]
  rfl

theorem interior_ne_boundary (s : String) : "interior" ≠ "boundary:" ++ s := by
  intro h
  have hd := congrArg String.data h
  rw [String.data_append, show "boundary:".data = 'b' :: "oundary:".data from rfl,
    List.cons_append, show "interior".data = 'i' :: "nterior".data from rfl] at hd
  injection hd with hh _
  exact absurd hh (by decide)

theorem count_filter_range (n : ℕ) (p : ℕ → Bool) (j : ℕ) :
    ((List.range n).filter p).count j = if j < n ∧ p j = true then 1 else 0 := by
  rw [List.count_eq_of_nodup ((List.nodup_range n).filter p)]
  by_cases h : j < n ∧ p j = true
  · have hmem : j ∈ (List.range n).filter p :=
      List.mem_filter.mpr ⟨List.mem_range.mpr h.1, h.2⟩
    rw [if_pos hmem, if_pos h]
  · have hmem : j ∉ (List.range n).filter p := by
      intro hc
      obtain ⟨hc1, hc2⟩ := List.mem_filter.mp hc
      exact h ⟨List.mem_range.mp hc1, hc2⟩
    rw [if_neg hmem, if_neg h]

theorem count_map_add_range (m c j : ℕ) :
    ((List.range m).map (fun k => k + c)).count j =
      if c ≤ j ∧ j < c + m then 1 else 0 := by
  have hnd : ((List.range m).map (fun k => k + c)).Nodup :=
    (List.nodup_range m).map (fun a b hab => by omega)
  rw [List.count_eq_of_nodup hnd]
  by_cases h : c ≤ j ∧ j < c + m
  · have hmem : j ∈ (List.range m).map (fun k => k + c) :=
      List.mem_map.mpr ⟨j - c, List.mem_range.mpr (by omega), by omega⟩
    rw [if_pos hmem, if_pos h]
  · have hmem : j ∉ (List.range m).map (fun k => k + c) := by
      intro hc
      obtain ⟨k, hk, hke⟩ := List.mem_map.mp hc
      rw [List.mem_range] at hk
      omega
    rw [if_neg hmem, if_neg h]

theorem count_interiorIdx (smpid : List ℤ) (j : ℕ) :
    (interiorIdx smpid).count j =
      if j < smpid.length ∧ smpid.getD j 0 = -1 then 1 else 0 := by
  unfold interiorIdx
  rw [count_filter_range]
  simp only [decide_eq_true_eq]

theorem count_smpToNodes (smpid : List ℤ) (s : ℕ) (j : ℕ) :
    (smpToNodes smpid s).count j =
      if j < smpid.length ∧ smpid.getD j 0 = (s : ℤ) then 1 else 0 := by
  unfold smpToNodes
  rw [count_filter_range]
  simp only [decide_eq_true_eq]

theorem count_buckets (smpid : List ℤ) (l : List ℤ) (hl : ∀ s ∈ l, 0 ≤ s)
    (j : ℕ) (hj : j < smpid.length) :
    ((l.map (fun s => smpToNodes smpid s.toNat)).flatten).count j =
      if 0 ≤ smpid.getD j 0 then l.count (smpid.getD j 0) else 0 := by
  induction l with
  | nil => simp
  | cons s tl ih =>
      rw [List.map_cons, List.flatten_cons, List.count_append,
        ih (fun x hx => hl x (List.mem_cons_of_mem _ hx)), count_smpToNodes]
      have hs0 : 0 ≤ s := hl s (List.mem_cons_self _ _)
      have hcast : ((s.toNat : ℤ)) = s := Int.toNat_of_nonneg hs0
      by_cases hpos : 0 ≤ smpid.getD j 0
      · rw [if_pos hpos, if_pos hpos, List.count_cons]
        by_cases heq : smpid.getD j 0 = s
        · rw [if_pos ⟨hj, by rw [hcast]; exact heq⟩, if_pos (beq_iff_eq.mpr heq.symm)]
          omega
        · rw [if_neg (fun hc => heq (by rw [← hcast]; exact hc.2)),
            if_neg (fun hc => heq (beq_iff_eq.mp hc).symm)]
          omega
      · rw [if_neg hpos, if_neg hpos,
          if_neg (fun hc => hpos (by rw [hc.2, hcast]; exact hs0))]

theorem groupCount_append (G1 G2 : List (String × List ℕ)) (j : ℕ) :
    groupCount (G1 ++ G2) j = groupCount G1 j + groupCount G2 j := by
  unfold groupCount
  rw [List.map_append, List.sum_append]

theorem ibCount_append (G1 G2 : List (String × List ℕ)) (j : ℕ) :
    ibCount (G1 ++ G2) j = ibCount G1 j + ibCount G2 j := by
  unfold ibCount
  rw [List.filter_append, List.map_append, List.sum_append]

theorem count_buckets_ge (smpid : List ℤ) (l : List ℤ) (j : ℕ)
    (hj : smpid.length ≤ j) :
    ((l.map (fun s => smpToNodes smpid s.toNat)).flatten).count j = 0 := by
  induction l with
  | nil => simp
  | cons s tl ih =>
      rw [List.map_cons, List.flatten_cons, List.count_append, ih,
        count_smpToNodes, if_neg (fun hc => by omega)]

theorem bsum_eval (smpid : List ℤ) (B : List (String × List ℤ))
    (hBvalid : ∀ kv ∈ B, ∀ s ∈ kv.2, 0 ≤ s) (j : ℕ) (hj : j < smpid.length) :
    (B.map (fun kv =>
        ((kv.2.map (fun s => smpToNodes smpid s.toNat)).flatten).count j)).sum =
      if 0 ≤ smpid.getD j 0 then (B.map (fun kv => kv.2.count (smpid.getD j 0))).sum
      else 0 := by
  induction B with
  | nil => simp
  | cons kv tl ih =>
      rw [List.map_cons, List.sum_cons,
        count_buckets smpid kv.2 (fun s hs => hBvalid kv (List.mem_cons_self _ _) s hs) j hj,
        ih (fun kv' h' s hs => hBvalid kv' (List.mem_cons_of_mem _ h') s hs)]
      by_cases hpos : 0 ≤ smpid.getD j 0
      · rw [if_pos hpos, if_pos hpos, if_pos hpos, List.map_cons, List.sum_cons]
      · rw [if_neg hpos, if_neg hpos, if_neg hpos]

theorem bsum_ge (smpid : List ℤ) (B : List (String × List ℤ)) (j : ℕ)
    (hj : smpid.length ≤ j) :
    (B.map (fun kv =>
        ((kv.2.map (fun s => smpToNodes smpid s.toNat)).flatten).count j)).sum = 0 := by
  induction B with
  | nil => simp
  | cons kv tl ih =>
      rw [List.map_cons, List.sum_cons, count_buckets_ge smpid kv.2 j hj, ih]

/-- Counts over the group mapping just before the ghost loop: every node
index below `ns.length + pinned-count` belongs to exactly one group; exactly
the indices below `ns.length` belong to an interior or boundary group; and
all group entries are valid indices. -/
theorem counts_preGhost (smpid : List ℤ) (ns : List Vec)
    (normals : List (Option Vec)) (p0 : Option (List Vec))
    (B : List (String × List ℤ)) (q : ℕ)
    (hlen : smpid.length = ns.length)
    (hrange : ∀ s ∈ smpid, s = -1 ∨ (0 ≤ s ∧ s < (q : ℤ)))
    (hBvalid : ∀ kv ∈ B, ∀ s ∈ kv.2, 0 ≤ s ∧ s < (q : ℤ))
    (hBpart : ∀ s : ℤ, 0 ≤ s → s < (q : ℤ) →
      (B.map (fun kv => kv.2.count s)).sum = 1) :
    (∀ kv ∈ boundaryStage smpid B (pinnedStage ns normals smpid p0).2.2,
        ∀ j ∈ kv.2, j < ns.length + (p0.getD []).length)
    ∧ (∀ j, groupCount (boundaryStage smpid B (pinnedStage ns normals smpid p0).2.2) j =
        if j < ns.length + (p0.getD []).length then 1 else 0)
    ∧ (∀ j, ibCount (boundaryStage smpid B (pinnedStage ns normals smpid p0).2.2) j =
        if j < ns.length then 1 else 0) := by
  have hrange' : ∀ j, j < smpid.length →
      smpid.getD j 0 = -1 ∨ (0 ≤ smpid.getD j 0 ∧ smpid.getD j 0 < (q : ℤ)) :=
    fun j hj => hrange _ (getD_mem smpid j 0 hj)
  have hBv0 : ∀ kv ∈ B, ∀ s ∈ kv.2, 0 ≤ s :=
    fun kv hkv s hs => (hBvalid kv hkv s hs).1
  have hBL : ∀ j, groupCount (B.map (fun kv =>
      ("boundary:" ++ kv.1, (kv.2.map (fun s => smpToNodes smpid s.toNat)).flatten))) j =
      (B.map (fun kv =>
        ((kv.2.map (fun s => smpToNodes smpid s.toNat)).flatten).count j)).sum := by
    intro j
    unfold groupCount
    rw [List.map_map]
    rfl
  have hIBBL : ∀ j, ibCount (B.map (fun kv =>
      ("boundary:" ++ kv.1, (kv.2.map (fun s => smpToNodes smpid s.toNat)).flatten))) j =
      (B.map (fun kv =>
        ((kv.2.map (fun s => smpToNodes smpid s.toNat)).flatten).count j)).sum := by
    intro j
    unfold ibCount
    have hfil : (B.map (fun kv =>
        ("boundary:" ++ kv.1, (kv.2.map (fun s => smpToNodes smpid s.toNat)).flatten))).filter
          (fun kv => isIB kv.1) =
        B.map (fun kv =>
          ("boundary:" ++ kv.1, (kv.2.map (fun s => smpToNodes smpid s.toNat)).flatten)) := by
      refine List.filter_eq_self.mpr ?_
      intro kv hkv
      obtain ⟨kv0, _, hkve⟩ := List.mem_map.mp hkv
      rw [← hkve]
      exact isIB_boundary kv0.1
    rw [hfil, List.map_map]
    rfl
  have hbsum : ∀ j, j < smpid.length →
      (B.map (fun kv =>
        ((kv.2.map (fun s => smpToNodes smpid s.toNat)).flatten).count j)).sum =
      if smpid.getD j 0 = -1 then 0 else 1 := by
    intro j hj
    rw [bsum_eval smpid B hBv0 j hj]
    rcases hrange' j hj with hc | hc
    · rw [if_pos hc, if_neg (by omega)]
    · rw [if_pos hc.1, if_neg (by omega), hBpart _ hc.1 hc.2]
  have hmemBL : ∀ kv ∈ B.map (fun kv =>
      ("boundary:" ++ kv.1, (kv.2.map (fun s => smpToNodes smpid s.toNat)).flatten)),
      ∀ j ∈ kv.2, j < smpid.length := by
    intro kv hkv j hj
    obtain ⟨kv0, _, hkve⟩ := List.mem_map.mp hkv
    rw [← hkve] at hj
    obtain ⟨l, hl, hjl⟩ := List.mem_flatten.mp hj
    obtain ⟨s, _, hse⟩ := List.mem_map.mp hl
    rw [← hse] at hjl
    unfold smpToNodes at hjl
    exact List.mem_range.mp (List.mem_filter.mp hjl).1
  have hmemI : ∀ j ∈ interiorIdx smpid, j < smpid.length := by
    intro j hj
    unfold interiorIdx at hj
    exact List.mem_range.mp (List.mem_filter.mp hj).1
  cases p0 with
  | none =>
      refine ⟨?_, ?_, ?_⟩
      · intro kv hkv j hj
        rcases List.mem_append.mp hkv with hP | hB2
        · rcases List.mem_cons.mp hP with rfl | hP2
          · have := hmemI j hj
            simp only [Option.getD_none, List.length_nil]
            omega
          · exact absurd hP2 (List.not_mem_nil kv)
        · have := hmemBL kv hB2 j hj
          simp only [Option.getD_none, List.length_nil]
          omega
      · intro j
        show groupCount ([("interior", interiorIdx smpid)] ++ _) j = _
        rw [groupCount_append, hBL]
        have hgp : groupCount [("interior", interiorIdx smpid)] j =
            (interiorIdx smpid).count j := by
          unfold groupCount
          simp
        rw [hgp, count_interiorIdx]
        simp only [Option.getD_none, List.length_nil, Nat.add_zero]
        by_cases hj : j < smpid.length
        · rw [hbsum j hj, if_pos (by omega : j < ns.length)]
          by_cases hc : smpid.getD j 0 = -1
          · rw [if_pos ⟨hj, hc⟩, if_pos hc]
          · rw [if_neg (fun h2 => hc h2.2), if_neg hc]
        · rw [bsum_ge smpid B j (by omega), if_neg (fun h2 => hj h2.1),
            if_neg (by omega : ¬ j < ns.length)]
      · intro j
        show ibCount ([("interior", interiorIdx smpid)] ++ _) j = _
        rw [ibCount_append, hIBBL]
        have hip : ibCount [("interior", interiorIdx smpid)] j =
            (interiorIdx smpid).count j := by
          unfold ibCount
          simp [isIB_interior]
        rw [hip, count_interiorIdx]
        by_cases hj : j < smpid.length
        · rw [hbsum j hj, if_pos (by omega : j < ns.length)]
          by_cases hc : smpid.getD j 0 = -1
          · rw [if_pos ⟨hj, hc⟩, if_pos hc]
          · rw [if_neg (fun h2 => hc h2.2), if_neg hc]
        · rw [bsum_ge smpid B j (by omega), if_neg (fun h2 => hj h2.1),
            if_neg (by omega : ¬ j < ns.length)]
  | some pn =>
      refine ⟨?_, ?_, ?_⟩
      · intro kv hkv j hj
        rcases List.mem_append.mp hkv with hP | hB2
        · rcases List.mem_cons.mp hP with rfl | hP2
          · have := hmemI j hj
            simp only [Option.getD_some]
            omega
          · rcases List.mem_cons.mp hP2 with rfl | hP3
            · obtain ⟨k, hk, hke⟩ := List.mem_map.mp hj
              rw [List.mem_range] at hk
              simp only [Option.getD_some]
              omega
            · exact absurd hP3 (List.not_mem_nil kv)
        · have := hmemBL kv hB2 j hj
          simp only [Option.getD_some]
          omega
      · intro j
        show groupCount ([("interior", interiorIdx smpid),
          ("pinned", (List.range pn.length).map (fun k => k + ns.length))] ++ _) j = _
        rw [groupCount_append, hBL]
        have hgp : groupCount [("interior", interiorIdx smpid),
            ("pinned", (List.range pn.length).map (fun k => k + ns.length))] j =
            (interiorIdx smpid).count j +
              ((List.range pn.length).map (fun k => k + ns.length)).count j := by
          unfold groupCount
          simp
        rw [hgp, count_interiorIdx, count_map_add_range]
        simp only [Option.getD_some]
        by_cases hj : j < smpid.length
        · rw [hbsum j hj, if_pos (by omega : j < ns.length + pn.length),
            if_neg (by omega : ¬ (ns.length ≤ j ∧ j < ns.length + pn.length))]
          by_cases hc : smpid.getD j 0 = -1
          · rw [if_pos ⟨hj, hc⟩, if_pos hc]
          · rw [if_neg (fun h2 => hc h2.2), if_neg hc]
        · rw [bsum_ge smpid B j (by omega), if_neg (fun h2 => hj h2.1)]
          by_cases hj2 : j < ns.length + pn.length
          · rw [if_pos hj2, if_pos (by omega : ns.length ≤ j ∧ j < ns.length + pn.length)]
          · rw [if_neg hj2,
              if_neg (fun h2 => hj2 h2.2)]
      · intro j
        show ibCount ([("interior", interiorIdx smpid),
          ("pinned", (List.range pn.length).map (fun k => k + ns.length))] ++ _) j = _
        rw [ibCount_append, hIBBL]
        have hip : ibCount [("interior", interiorIdx smpid),
            ("pinned", (List.range pn.length).map (fun k => k + ns.length))] j =
            (interiorIdx smpid).count j := by
          unfold ibCount
          simp [isIB_interior, isIB_pinned]
        rw [hip, count_interiorIdx]
        by_cases hj : j < smpid.length
        · rw [hbsum j hj, if_pos (by omega : j < ns.length)]
          by_cases hc : smpid.getD j 0 = -1
          · rw [if_pos ⟨hj, hc⟩, if_pos hc]
          · rw [if_neg (fun h2 => hc h2.2), if_neg hc]
        · rw [bsum_ge smpid B j (by omega), if_neg (fun h2 => hj h2.1),
            if_neg (by omega : ¬ j < ns.length)]

/-- The ghost loop preserves the counting invariants: every current index
in exactly one group, and exactly the indices below `n1` (the pre-pinned
node count) in interior/boundary groups. -/
theorem ghost_fold_counts (kq : KQ) (pool : List Vec) (gdelta : ℝ) (n1 : ℕ) :
    ∀ (names : List String)
      (st st' : List Vec × List (Option Vec) × List (String × List ℕ)),
      List.foldlM (ghostStep kq pool gdelta) st names = .ok st' →
      (∀ kv ∈ st.2.2, ∀ j ∈ kv.2, j < st.1.length) →
      (∀ j, groupCount st.2.2 j = if j < st.1.length then 1 else 0) →
      (∀ j, ibCount st.2.2 j = if j < n1 then 1 else 0) →
      (∀ kv ∈ st'.2.2, ∀ j ∈ kv.2, j < st'.1.length)
      ∧ (∀ j, groupCount st'.2.2 j = if j < st'.1.length then 1 else 0)
      ∧ (∀ j, ibCount st'.2.2 j = if j < n1 then 1 else 0) := by
  intro names
  induction names with
  | nil =>
      intro st st' h hV hT hI
      have h2 : st = st' := Except.ok.inj h
      subst h2
      exact ⟨hV, hT, hI⟩
  | cons name rest ih =>
      intro st st' h hV hT hI
      rw [List.foldlM_cons] at h
      obtain ⟨stm, hstep, hrest⟩ := except_bind_eq_ok h
      unfold ghostStep at hstep
      cases hlk : lookupG st.2.2 ("boundary:" ++ name) with
      | none =>
          rw [hlk] at hstep
          exact absurd hstep (by simp)
      | some bidx =>
          rw [hlk] at hstep
          have hstm := (Except.ok.inj hstep).symm
          have hlen1 : stm.1.length = st.1.length + bidx.length := by
            rw [hstm]
            simp
          have hG2 : stm.2.2 = st.2.2 ++ [("ghosts:" ++ name,
              (List.range bidx.length).map (fun k => k + st.1.length))] := by
            rw [hstm]
          refine ih stm st' hrest ?_ ?_ ?_
          · intro kv hkv j hj
            rw [hG2] at hkv
            rcases List.mem_append.mp hkv with h1 | h2
            · have := hV kv h1 j hj
              omega
            · rcases List.mem_cons.mp h2 with rfl | h3
              · obtain ⟨k, hk, hke⟩ := List.mem_map.mp hj
                rw [List.mem_range] at hk
                omega
              · exact absurd h3 (List.not_mem_nil kv)
          · intro j
            rw [hG2, groupCount_append]
            have hg1 : groupCount [("ghosts:" ++ name,
                (List.range bidx.length).map (fun k => k + st.1.length))] j =
                ((List.range bidx.length).map (fun k => k + st.1.length)).count j := by
              unfold groupCount
              simp
            rw [hg1, count_map_add_range, hT j, hlen1]
            by_cases h1 : j < st.1.length
            · rw [if_pos h1, if_neg (by omega), if_pos (by omega)]
            · rw [if_neg h1]
              by_cases h2 : j < st.1.length + bidx.length
              · rw [if_pos (by omega), if_pos (by omega)]
              · rw [if_neg (by omega), if_neg (by omega)]
          · intro j
            rw [hG2, ibCount_append]
            have hg0 : ibCount [("ghosts:" ++ name,
                (List.range bidx.length).map (fun k => k + st.1.length))] j = 0 := by
              unfold ibCount
              simp [isIB_ghosts]
            rw [hg0, hI j, Nat.add_zero]

theorem count_map_injOn (f : ℕ → ℕ) (n : ℕ)
    (hinj : ∀ a, a < n → ∀ b, b < n → f a = f b → a = b) :
    ∀ (v : List ℕ), (∀ a ∈ v, a < n) → ∀ i, i < n →
      (v.map f).count (f i) = v.count i
  | [], _, _, _ => rfl
  | a :: tl, hv, i, hi => by
      rw [List.map_cons, List.count_cons, List.count_cons,
        count_map_injOn f n hinj tl (fun x hx => hv x (List.mem_cons_of_mem _ hx)) i hi]
      have ha : a < n := hv a (List.mem_cons_self _ _)
      by_cases hia : i = a
      · rw [if_pos (beq_iff_eq.mpr (by rw [hia])),
          if_pos (beq_iff_eq.mpr (by rw [hia]))]
      · rw [if_neg (fun hc => hia (hinj i hi a ha (beq_iff_eq.mp hc).symm)),
          if_neg (fun hc => hia (beq_iff_eq.mp hc).symm)]

theorem ibCount_map_remap (g : List ℕ → List ℕ) (j : ℕ) :
    ∀ (G : List (String × List ℕ)),
      ibCount (G.map (fun kv => (kv.1, g kv.2))) j =
        ((G.filter (fun kv => isIB kv.1)).map (fun kv => (g kv.2).count j)).sum
  | [] => rfl
  | kv :: tl => by
      rw [List.map_cons]
      by_cases h : isIB kv.1 = true
      · unfold ibCount
        rw [List.filter_cons, List.filter_cons]
        dsimp only
        rw [h, if_pos rfl, if_pos rfl,
          List.map_cons, List.sum_cons, List.map_cons, List.sum_cons]
        have hih := ibCount_map_remap g j tl
        unfold ibCount at hih
        rw [hih]
      · have hf : isIB kv.1 = false := by simpa using h
        unfold ibCount
        rw [List.filter_cons, List.filter_cons]
        dsimp only
        rw [hf, if_neg Bool.false_ne_true, if_neg Bool.false_ne_true]
        have hih := ibCount_map_remap g j tl
        unfold ibCount at hih
        rw [hih]

theorem groupCount_map_remap (G : List (String × List ℕ)) (g : List ℕ → List ℕ)
    (j : ℕ) :
    groupCount (G.map (fun kv => (kv.1, g kv.2))) j =
      (G.map (fun kv => (g kv.2).count j)).sum := by
  unfold groupCount
  rw [List.map_map]
  rfl

theorem sum_counts_remap (invpF : ℕ → ℕ) (n : ℕ)
    (hinj : ∀ a, a < n → ∀ b, b < n → invpF a = invpF b → a = b)
    (i : ℕ) (hi : i < n) :
    ∀ (L : List (String × List ℕ)), (∀ kv ∈ L, ∀ a ∈ kv.2, a < n) →
      (L.map (fun kv => (kv.2.map invpF).count (invpF i))).sum =
        (L.map (fun kv => kv.2.count i)).sum
  | [], _ => rfl
  | kv :: tl, hL => by
      rw [List.map_cons, List.sum_cons, List.map_cons, List.sum_cons,
        count_map_injOn invpF n hinj kv.2 (hL kv (List.mem_cons_self _ _)) i hi,
        sum_counts_remap invpF n hinj i hi tl
          (fun kv' h' => hL kv' (List.mem_cons_of_mem _ h'))]

theorem map_getD_range_self : ∀ (l : List ℕ),
    (List.range l.length).map (fun j => l.getD j 0) = l
  | [] => rfl
  | a :: tl => by
      rw [List.length_cons, List.range_succ_eq_map, List.map_cons, List.map_map]
      have hcomp : ((fun j => (a :: tl).getD j 0) ∘ Nat.succ) =
          (fun k => tl.getD k 0) := by
        funext k
        rfl
      rw [hcomp, map_getD_range_self tl]
      rfl

theorem countP_range_lt (n1 : ℕ) : ∀ (N : ℕ), n1 ≤ N →
    (List.range N).countP (fun i => decide (i < n1)) = n1 := by
  intro N
  induction N with
  | zero =>
      intro h
      simp only [List.range_zero, List.countP_nil]
      omega
  | succ N ih =>
      intro h
      rw [List.range_succ, List.countP_append]
      by_cases hN : n1 ≤ N
      · rw [ih hN]
        have h0 : List.countP (fun i => decide (i < n1)) [N] = 0 := by
          simp only [List.countP_cons, List.countP_nil]
          rw [if_neg (by simp; omega)]
        rw [h0]
        rfl
      · have hall2 : ∀ a ∈ List.range N, (fun i => decide (i < n1)) a = true :=
          fun a ha => decide_eq_true (by rw [List.mem_range] at ha; omega)
        rw [List.countP_eq_length.mpr hall2, List.length_range]
        have h1 : List.countP (fun i => decide (i < n1)) [N] = 1 := by
          simp only [List.countP_cons, List.countP_nil]
          rw [if_pos (by simp; omega)]
        rw [h1]
        omega

theorem two_mem_le_sum (f : (String × List ℕ) → ℕ) :
    ∀ (L : List (String × List ℕ)) (a b : String × List ℕ),
      a ∈ L → b ∈ L → a ≠ b → f a + f b ≤ (L.map f).sum
  | [], a, _, ha, _, _ => absurd ha (List.not_mem_nil a)
  | x :: tl, a, b, ha, hb, hne => by
      rw [List.map_cons, List.sum_cons]
      rcases List.mem_cons.mp ha with rfl | ha2
      · rcases List.mem_cons.mp hb with hbx | hb2
        · exact absurd hbx.symm hne
        · have hle : f b ≤ (tl.map f).sum :=
            List.single_le_sum (fun y _ => Nat.zero_le y) _ (List.mem_map_of_mem f hb2)
          omega
      · rcases List.mem_cons.mp hb with rfl | hb2
        · have hle : f a ≤ (tl.map f).sum :=
            List.single_le_sum (fun y _ => Nat.zero_le y) _ (List.mem_map_of_mem f ha2)
          omega
        · have hle := two_mem_le_sum f tl a b ha2 hb2 hne
          omega

/-- **C3**: in every successful `prepare_nodes` result whose boundary groups
exactly partition the simplex indices (the default single group `all` is
such a partition), every index in every returned group is a valid index into
the returned node array; every node belongs to exactly one group; the nodes
covered by the `interior` and `boundary:*` groups (exactly once each) are
exactly as many as the original-sample-derived nodes (the non-pinned,
non-ghost ones); and the `interior` group is disjoint from every
`boundary:*` group. -/
theorem C3_group_partition (O : DomainO) (kq : KQ) (nas : List Vec → List ℕ)
    (nodes : List Vec) (rho0 : Option (Vec → ℝ)) (iterations : ℕ)
    (neighbors0 : Option ℤ) (dispersion_delta : ℝ)
    (pinned_nodes0 : Option (List Vec)) (snap_delta : ℝ)
    (boundary_groups0 : Option (List (String × List ℤ))) (ghosts : List String)
    (ghost_delta : ℝ) (include_vertices : Bool) (ns1 : List Vec) (smpid : List ℤ)
    (N : List Vec) (G : List (String × List ℕ)) (M : List (Option Vec))
    (hperm : ∀ xs, (nas xs).Perm (List.range xs.length))
    (hok : prepSnapped O kq nodes rho0 iterations neighbors0 dispersion_delta
      pinned_nodes0 snap_delta include_vertices = .ok (ns1, smpid))
    (hlen : smpid.length = ns1.length)
    (hrange : ∀ s ∈ smpid, s = -1 ∨ (0 ≤ s ∧ s < (O.nsimp : ℤ)))
    (hBvalid : ∀ kv ∈ effBoundaryGroups O.nsimp boundary_groups0,
      ∀ s ∈ kv.2, 0 ≤ s ∧ s < (O.nsimp : ℤ))
    (hBpart : ∀ s : ℤ, 0 ≤ s → s < (O.nsimp : ℤ) →
      ((effBoundaryGroups O.nsimp boundary_groups0).map (fun kv => kv.2.count s)).sum = 1)
    (hres : prepare_nodes O kq nas nodes rho0 iterations neighbors0
      dispersion_delta pinned_nodes0 snap_delta boundary_groups0 ghosts
      ghost_delta include_vertices = .ok (N, G, M)) :
    (∀ kv ∈ G, ∀ j ∈ kv.2, j < N.length)
    ∧ (∀ j, j < N.length → groupCount G j = 1)
    ∧ ((List.range N.length).filter (fun j => ibCount G j = 1)).length = ns1.length
    ∧ (∀ li, ("interior", li) ∈ G → ∀ nm lb, ("boundary:" ++ nm, lb) ∈ G →
        ∀ j ∈ li, j ∉ lb) := by
  obtain ⟨st3, hfold, hN, hM, hG⟩ := prepare_nodes_inversion O kq nas nodes rho0
    iterations neighbors0 dispersion_delta pinned_nodes0 snap_delta
    boundary_groups0 ghosts ghost_delta include_vertices ns1 smpid N G M hok hres
  obtain ⟨hV0, hT0, hI0⟩ := counts_preGhost smpid ns1
    (normalsFromSmpid O ns1.length smpid) pinned_nodes0
    (effBoundaryGroups O.nsimp boundary_groups0) O.nsimp hlen hrange hBvalid hBpart
  have hst2len : (pinnedStage ns1 (normalsFromSmpid O ns1.length smpid) smpid
      pinned_nodes0).1.length = ns1.length + (pinned_nodes0.getD []).length := by
    rw [pinnedStage_fst]
    simp
  obtain ⟨hV3, hT3, hI3⟩ := ghost_fold_counts kq
    (pinnedStage ns1 (normalsFromSmpid O ns1.length smpid) smpid pinned_nodes0).1
    ghost_delta ns1.length ghosts _ st3 hfold
    (by
      intro kv hkv j hj
      have := hV0 kv hkv j hj
      show j < (pinnedStage ns1 (normalsFromSmpid O ns1.length smpid) smpid
        pinned_nodes0).1.length
      omega)
    (by
      intro j
      show groupCount _ j = if j < (pinnedStage ns1 (normalsFromSmpid O ns1.length
        smpid) smpid pinned_nodes0).1.length then 1 else 0
      rw [hst2len]
      exact hT0 j)
    hI0
  obtain ⟨ext, extM, gg, he1, _, _, _, _⟩ :=
    ghost_fold_decomp kq _ ghost_delta ghosts _ st3 hfold
  dsimp only at he1
  have hn1le : ns1.length ≤ st3.1.length := by
    rw [he1, pinnedStage_fst]
    simp
  have hp : (nas st3.1).Perm (List.range st3.1.length) := hperm st3.1
  have hplen : (nas st3.1).length = st3.1.length := perm_range_length hp
  have hNlen : N.length = st3.1.length := by
    rw [hN, npIndex_length, hplen]
  have hinj : ∀ a, a < st3.1.length → ∀ b, b < st3.1.length →
      (np_argsort (nas st3.1)).getD a 0 = (np_argsort (nas st3.1)).getD b 0 → a = b := by
    intro a ha b hb he
    rw [np_argsort_getD _ a (by omega), np_argsort_getD _ b (by omega)] at he
    have h2 := congrArg (fun t => (nas st3.1).getD t 0) he
    dsimp only at h2
    rwa [perm_range_getD_indexOf hp a ha, perm_range_getD_indexOf hp b hb] at h2
  have hG' : G = st3.2.2.map (fun kv =>
      (kv.1, kv.2.map (fun t => (np_argsort (nas st3.1)).getD t 0))) := hG
  have hVf : ∀ kv ∈ G, ∀ j ∈ kv.2, j < N.length := by
    intro kv hkv j hj
    rw [hG'] at hkv
    obtain ⟨kv0, hkv0, hkve⟩ := List.mem_map.mp hkv
    rw [← hkve] at hj
    obtain ⟨a, haa, hae⟩ := List.mem_map.mp hj
    rw [← hae, hNlen]
    exact np_argsort_getD_lt hp a (hV3 kv0 hkv0 a haa)
  have hTf : ∀ j, j < N.length → groupCount G j = 1 := by
    intro j hj
    have hjp : j < (nas st3.1).length := by omega
    have hi : (nas st3.1).getD j 0 < st3.1.length := perm_range_getD_lt hp j hjp
    have hji : (np_argsort (nas st3.1)).getD ((nas st3.1).getD j 0) 0 = j := by
      rw [np_argsort_getD _ _ (by omega)]
      exact perm_range_indexOf_getD hp j hjp
    rw [hG', ← hji, groupCount_map_remap,
      sum_counts_remap _ st3.1.length hinj _ hi st3.2.2 hV3]
    have hgc : (st3.2.2.map (fun kv => kv.2.count ((nas st3.1).getD j 0))).sum =
        groupCount st3.2.2 ((nas st3.1).getD j 0) := rfl
    rw [hgc, hT3, if_pos hi]
  have hIf : ∀ j, j < N.length →
      ibCount G j = if (nas st3.1).getD j 0 < ns1.length then 1 else 0 := by
    intro j hj
    have hjp : j < (nas st3.1).length := by omega
    have hi : (nas st3.1).getD j 0 < st3.1.length := perm_range_getD_lt hp j hjp
    have hji : (np_argsort (nas st3.1)).getD ((nas st3.1).getD j 0) 0 = j := by
      rw [np_argsort_getD _ _ (by omega)]
      exact perm_range_indexOf_getD hp j hjp
    rw [hG', ← hji, ibCount_map_remap,
      sum_counts_remap _ st3.1.length hinj _ hi _
        (fun kv hkv => hV3 kv (List.mem_of_mem_filter hkv))]
    have hgc : ((st3.2.2.filter (fun kv => isIB kv.1)).map
        (fun kv => kv.2.count ((nas st3.1).getD j 0))).sum =
        ibCount st3.2.2 ((nas st3.1).getD j 0) := rfl
    rw [hgc, hI3, hji]
  refine ⟨hVf, hTf, ?_, ?_⟩
  · have hcongr : ((List.range N.length).filter (fun j => ibCount G j = 1)) =
        ((List.range N.length).filter
          (fun j => decide ((nas st3.1).getD j 0 < ns1.length))) := by
      refine List.filter_congr ?_
      intro j hjm
      rw [List.mem_range] at hjm
      rw [hIf j hjm]
      by_cases hlt : (nas st3.1).getD j 0 < ns1.length
      · rw [if_pos hlt, decide_eq_true hlt, decide_eq_true rfl]
      · rw [if_neg hlt, decide_eq_false hlt, decide_eq_false (by omega)]
    rw [hcongr, ← List.countP_eq_length_filter]
    have hcomp : (List.range N.length).countP
        (fun j => decide ((nas st3.1).getD j 0 < ns1.length)) =
        ((List.range N.length).map (fun j => (nas st3.1).getD j 0)).countP
          (fun i => decide (i < ns1.length)) := by
      rw [List.countP_map]
      rfl
    rw [hcomp, hNlen, ← hplen, map_getD_range_self, hp.countP_eq]
    exact countP_range_lt ns1.length st3.1.length hn1le
  · intro li hli nm lb hlb j hjl hjb
    have hjN : j < N.length := hVf ("interior", li) hli j hjl
    have h1 : ("interior", li) ∈ G.filter (fun kv => isIB kv.1) :=
      List.mem_filter.mpr ⟨hli, isIB_interior⟩
    have h2 : ("boundary:" ++ nm, lb) ∈ G.filter (fun kv => isIB kv.1) :=
      List.mem_filter.mpr ⟨hlb, isIB_boundary nm⟩
    have hne : ("interior", li) ≠ ("boundary:" ++ nm, lb) :=
      fun he => interior_ne_boundary nm (congrArg Prod.fst he)
    have hsum := two_mem_le_sum (fun kv => kv.2.count j)
      (G.filter (fun kv => isIB kv.1)) _ _ h1 h2 hne
    have hc1 : 0 < li.count j := List.count_pos_iff.mpr hjl
    have hc2 : 0 < lb.count j := List.count_pos_iff.mpr hjb
    have hub : ibCount G j ≤ 1 := by
      rw [hIf j hjN]
      split_ifs <;> omega
    unfold ibCount at hub
    dsimp only at hsum
    omega

/-- Witness for `C3_group_partition` at the concrete scenario with the
default (exactly partitioning) boundary groups. -/
theorem C3_group_partition_witness :
    ((∀ xs, (Wnas xs).Perm (List.range xs.length))
      ∧ (∀ s ∈ ([0, -1] : List ℤ), s = -1 ∨ (0 ≤ s ∧ s < (WO.nsimp : ℤ)))
      ∧ (∀ kv ∈ effBoundaryGroups WO.nsimp none, ∀ s ∈ kv.2,
          0 ≤ s ∧ s < (WO.nsimp : ℤ))
      ∧ (∀ s : ℤ, 0 ≤ s → s < (WO.nsimp : ℤ) →
          ((effBoundaryGroups WO.nsimp none).map (fun kv => kv.2.count s)).sum = 1))
    ∧ ((List.range ([[(0 : ℝ)], [1], [5]] : List Vec).length).filter
        (fun j => ibCount
          [("interior", [1]), ("pinned", [2]), ("boundary:all", [0])] j = 1)).length =
      ([[(0 : ℝ)], [1]] : List Vec).length := by
  have hrange : ∀ s ∈ ([0, -1] : List ℤ), s = -1 ∨ (0 ≤ s ∧ s < (WO.nsimp : ℤ)) := by
    decide
  have hBvalid : ∀ kv ∈ effBoundaryGroups WO.nsimp none, ∀ s ∈ kv.2,
      0 ≤ s ∧ s < (WO.nsimp : ℤ) := by
    decide
  have hBpart : ∀ s : ℤ, 0 ≤ s → s < (WO.nsimp : ℤ) →
      ((effBoundaryGroups WO.nsimp none).map (fun kv => kv.2.count s)).sum = 1 := by
    intro s h1 h2
    have hs : s = 0 := by
      have : (WO.nsimp : ℤ) = 1 := rfl
      omega
    subst hs
    decide
  exact ⟨⟨Wnas_perm, hrange, hBvalid, hBpart⟩,
    (C3_group_partition WO WKQ Wnas [[0], [1]] none 0 (some 1) 1 (some [[5]])
      (1 / 2) none [] (1 / 2) false [[0], [1]] [0, -1] [[0], [1], [5]]
      [("interior", [1]), ("pinned", [2]), ("boundary:all", [0])]
      [some [1], none, none] Wnas_perm WO_snap_eval rfl hrange hBvalid hBpart
      W_prepare_eval).2.2.1⟩

end
